import Mathlib

/-!
Verification development for the FunCallArchitect planning/validation/execution
core (Go).  Each Go construct is shallowly embedded as an executable Lean
definition:

* decoded JSON values (Go `interface{}` after `json.Unmarshal`) become the
  nested inductive `GoValue`; a Go `map[string]T` becomes an association list
  `List (String × T)` with unique keys and first-match lookup (`alookup`);
* the tool registry (`tools.TypeInfo`, `tools.FuncDefinition`, `tools.ToolSet`)
  and the JSON-Schema generator (`tools/json_schema_generator.go`) are embedded
  with JSON documents represented as `GoValue` syntax trees (the Go code builds
  the same documents through text templates and then `json.Compact`s them;
  the tree form carries exactly the structural content);
* the plan parser (`parser/func_calls_parser.go`) becomes the mutual block
  `parseArgs` / `parseNestedFunc` / `parseFuncDetails`;
* the orchestrator (`execution` package) becomes `executeFunc` / `executeSeq`
  over an explicit memo state, with each executor invocation recorded in an
  `Invocation` log so that memoization claims are observable.  A Go
  `FuncExecutor` is a pure function into `ExecOutcome` (`ok`/`err`/`timeout`);
  `timeout` abstracts the orchestrator's per-call timeout race.  A Go
  `FormatFunc` closure is modelled by its observable outcome,
  `FormatFn := Except String String`.
-/

/-- A decoded JSON value, i.e. a Go `interface{}` produced by `json.Unmarshal`:
`nil`, `bool`, number, `string`, `[]interface{}` or `map[string]interface{}`.
Go maps carry no key order, so an object is modelled as an association list
taken up to its lookup function; keys are unique. -/
inductive GoValue where
  | null
  | bool (b : Bool)
  | num (n : Int)
  | str (s : String)
  | arr (elems : List GoValue)
  | obj (fields : List (String × GoValue))

/-- Lookup in an association list modelling a Go map access `m[k]`
(first match; Go maps have unique keys). -/
def alookup {ν : Type} (k : String) : List (String × ν) → Option ν
  | [] => none
  | (k', v) :: rest => if k' = k then some v else alookup k rest

/-- `tools.TypeInfo`: a schema node.  The Go struct has pointer/nil-able
fields `Items *TypeInfo`, `Properties map[string]TypeInfo`,
`Required/Enum []string`; a nil and an empty map/slice are rendered the same
way by the generator, so they are conflated into `[]` here. -/
inductive TypeInfo where
  | mk (type : String) (description : String) (items : Option TypeInfo)
       (properties : List (String × TypeInfo)) (required : List String)
       (enum : List String) (pattern : String)

def TypeInfo.type : TypeInfo → String
  | .mk t _ _ _ _ _ _ => t

def TypeInfo.description : TypeInfo → String
  | .mk _ d _ _ _ _ _ => d

def TypeInfo.items : TypeInfo → Option TypeInfo
  | .mk _ _ i _ _ _ _ => i

def TypeInfo.properties : TypeInfo → List (String × TypeInfo)
  | .mk _ _ _ p _ _ _ => p

def TypeInfo.required : TypeInfo → List String
  | .mk _ _ _ _ r _ _ => r

def TypeInfo.enum : TypeInfo → List String
  | .mk _ _ _ _ _ e _ => e

def TypeInfo.pattern : TypeInfo → String
  | .mk _ _ _ _ _ _ p => p

/-- `tools.FuncDefinition`. -/
structure FuncDefinition where
  name : String
  description : String
  parameters : TypeInfo
  returns : TypeInfo

/-- `tools.ToolSet`: the function list plus the named-type dictionary. -/
structure ToolSet where
  functions : List FuncDefinition
  typeDefinitions : List (String × TypeInfo)

/-- `ToolSet.FindTool`: first function with the given name. -/
def FindTool (ts : ToolSet) (name : String) : Option FuncDefinition :=
  ts.functions.find? (fun f => f.name == name)

mutual

/-- `tools.isTypeUsedInTypeInfo`: the type name occurs as this node's type,
as the direct item type of an array node, or (recursively) in a property. -/
def isTypeUsedInTypeInfo (typeName : String) : TypeInfo → Bool
  | .mk ty _ items props _ _ _ =>
    ty == typeName
    || (ty == "array" && (match items with
        | some it => it.type == typeName
        | none => false))
    || anyPropertyUses typeName props

/-- The `info.Properties` loop of `tools.isTypeUsedInTypeInfo`. -/
def anyPropertyUses (typeName : String) : List (String × TypeInfo) → Bool
  | [] => false
  | (_, ti) :: rest => isTypeUsedInTypeInfo typeName ti || anyPropertyUses typeName rest

end

/-- `ToolSet.isUsedAsArgumentType`: some function's parameters use the type. -/
def isUsedAsArgumentType (ts : ToolSet) (typeName : String) : Bool :=
  ts.functions.any (fun f => isTypeUsedInTypeInfo typeName f.parameters)

mutual

/-- `toolsJSONSchemaGenerator.transformTypeInfo`.  A user-defined type becomes
a `$ref`; otherwise the node is rendered with exactly the attributes the Go
template emits, in template order.  (Go renders object properties in map
iteration order; the list order stands in for it.) -/
def transformTypeInfo (typeDefinitions : List (String × TypeInfo)) : TypeInfo → GoValue
  | .mk ty desc items props req enum pat =>
    if (alookup ty typeDefinitions).isSome then
      .obj [("$ref", .str ("#/$defs/" ++ ty))]
    else
      .obj ([("type", .str ty)]
        ++ (if desc ≠ "" then [("description", .str desc)] else [])
        ++ (if enum ≠ [] then [("enum", .arr (enum.map .str))] else [])
        ++ (if pat ≠ "" then [("pattern", .str pat)] else [])
        ++ (match items with
            | some it => [("items", transformTypeInfo typeDefinitions it)]
            | none => [])
        ++ (match props with
            | [] => []
            | _ :: _ =>
              [("properties", .obj (transformProps typeDefinitions props)),
               ("additionalProperties", .bool false)]
              ++ (if req ≠ [] then [("required", .arr (req.map .str))] else [])))

/-- The `info.Properties` loop of `transformTypeInfo`. -/
def transformProps (typeDefinitions : List (String × TypeInfo)) :
    List (String × TypeInfo) → List (String × GoValue)
  | [] => []
  | (n, ti) :: rest =>
    (n, transformTypeInfo typeDefinitions ti) :: transformProps typeDefinitions rest

end

/-- `toolsJSONSchemaGenerator.generateFunctionDefinition`: the `$defs` entry
for one function. -/
def generateFunctionDefinition (ts : ToolSet) (f : FuncDefinition) : GoValue :=
  .obj [("type", .str "object"),
        ("additionalProperties", .bool false),
        ("required", .arr [.str f.name]),
        ("properties", .obj [(f.name, .obj
          [("type", .str "object"),
           ("description", .str f.description),
           ("additionalProperties", .bool false),
           ("required", .arr [.str "purpose", .str "args"]),
           ("properties", .obj
             [("purpose", .obj [("type", .str "string")]),
              ("args", transformTypeInfo ts.typeDefinitions f.parameters)])])])]

/-- Appending to a `map[string][]string` entry, preserving first-insertion
order of keys (`typeToFunctions[returnType] = append(...)`). -/
def assocAppend (acc : List (String × List String)) (k : String) (v : String) :
    List (String × List String) :=
  match acc with
  | [] => [(k, [v])]
  | (k', vs) :: rest =>
    if k' = k then (k', vs ++ [v]) :: rest else (k', vs) :: assocAppend rest k v

/-- The `typeToFunctions` map of
`toolsJSONSchemaGenerator.generateFuncCallReturningDefinitions`: for every
function whose return type is used as an argument type somewhere, the
function's name is filed under that return type. -/
def typeToFunctions (ts : ToolSet) : List (String × List String) :=
  ts.functions.foldl
    (fun acc f =>
      if isUsedAsArgumentType ts f.returns.type then
        assocAppend acc f.returns.type f.name
      else acc)
    []

/-- The body of one `func_call_returning_<T>` definition. -/
def funcCallReturningDef (functionNames : List String) : GoValue :=
  .obj [("type", .str "object"),
        ("required", .arr [.str "func_call"]),
        ("additionalProperties", .bool false),
        ("properties", .obj [("func_call", .obj
          [("oneOf", .arr (functionNames.map
            (fun n => .obj [("$ref", .str ("#/$defs/" ++ n))])))])])]

/-- `toolsJSONSchemaGenerator.generateFuncCallReturningDefinitions`. -/
def generateFuncCallReturningDefinitions (ts : ToolSet) : List (String × GoValue) :=
  (typeToFunctions ts).map
    (fun p => ("func_call_returning_" ++ p.1, funcCallReturningDef p.2))

/-- `toolsJSONSchemaGenerator.generateTypeDefinition`: the `$defs` entry for a
named type.  Note the guard is `isUsedAsArgumentType` alone: the wrapper
`$ref` is emitted whether or not any function returns the type. -/
def generateTypeDefinition (ts : ToolSet) (typeName : String) (typeInfo : TypeInfo) : GoValue :=
  let baseDef := transformTypeInfo ts.typeDefinitions typeInfo
  if isUsedAsArgumentType ts typeName then
    .obj [("oneOf", .arr [baseDef,
          .obj [("$ref", .str ("#/$defs/func_call_returning_" ++ typeName))]])]
  else baseDef

/-- The `$defs` object assembled by `toolsJSONSchemaGenerator.toJSONSchema`:
`func_call`, then one entry per function, per named type, and per
`func_call_returning_<T>` helper. -/
def schemaDefs (ts : ToolSet) : List (String × GoValue) :=
  ("func_call", .obj [("oneOf", .arr (ts.functions.map
      (fun f => .obj [("$ref", .str ("#/$defs/" ++ f.name))])))])
  :: (ts.functions.map (fun f => (f.name, generateFunctionDefinition ts f))
      ++ ts.typeDefinitions.map (fun p => (p.1, generateTypeDefinition ts p.1 p.2))
      ++ generateFuncCallReturningDefinitions ts)

/-- `ToolSet.ToJSONSchema` (via `toolsJSONSchemaGenerator.toJSONSchema`):
the full draft-07 document. -/
def toJSONSchema (ts : ToolSet) : GoValue :=
  .obj [("$schema", .str "http://json-schema.org/draft-07/schema#"),
        ("type", .str "object"),
        ("properties", .obj
          [("understanding", .obj [("type", .str "string")]),
           ("main_functions", .obj
             [("type", .str "array"),
              ("items", .obj [("$ref", .str "#/$defs/func_call")])])]),
        ("required", .arr [.str "understanding", .str "main_functions"]),
        ("additionalProperties", .bool false),
        ("$defs", .obj (schemaDefs ts))]

/-- A parsed argument value: a literal JSON value, or a nested planned call
(`parser.PlannedFuncCall` stored as an argument).  The nested call's fields
are inlined so the tree is a single nested inductive. -/
inductive PlannedArg where
  | lit (v : GoValue)
  | call (name purpose : String) (args : List (String × PlannedArg))

/-- `parser.PlannedFuncCall`. -/
structure PlannedFuncCall where
  name : String
  purpose : String
  args : List (String × PlannedArg)

/-- The view of a `PlannedArg.call` as a `PlannedFuncCall`. -/
def PlannedArg.ofCall (c : PlannedFuncCall) : PlannedArg :=
  .call c.name c.purpose c.args

/-- `parser.ErrInvalidJSON`'s message. -/
def ErrInvalidJSON : String := "invalid JSON structure"

mutual

/-- `parser.parseArgs`.  Objects are probed for a `func_call` entry
(`v["func_call"].(map[string]interface{})`); empty-string values are dropped;
everything else is stored as-is.  In every embedded error message the single
quotes that Go places around interpolated names are elided. -/
def parseArgs : List (String × GoValue) → Except String (List (String × PlannedArg))
  | [] => .ok []
  | (key, value) :: rest =>
    match value with
    | .obj v =>
      match findAndParseFuncCall v with
      | some (.error e) =>
        .error ("error parsing nested function for arg " ++ key ++ ": " ++ e)
      | some (.ok c) =>
        (parseArgs rest).map (fun xs => (key, PlannedArg.ofCall c) :: xs)
      | none => (parseArgs rest).map (fun xs => (key, .lit (.obj v)) :: xs)
    | .str s =>
      if s = "" then parseArgs rest
      else (parseArgs rest).map (fun xs => (key, .lit (.str s)) :: xs)
    | v => (parseArgs rest).map (fun xs => (key, .lit v) :: xs)

/-- The lookup-and-type-assert `v["func_call"].(map[string]interface{})`
fused with the recursive parse: `none` means the key is absent or its value
is not a map, i.e. the object is kept as a literal. -/
def findAndParseFuncCall : List (String × GoValue) → Option (Except String PlannedFuncCall)
  | [] => none
  | (k, v) :: rest =>
    if k = "func_call" then
      match v with
      | .obj fc => some (parseNestedFunc fc)
      | _ => none
    else findAndParseFuncCall rest

/-- `parser.parseNestedFunc`: the `func_call` payload must be a single-entry
mapping. -/
def parseNestedFunc : List (String × GoValue) → Except String PlannedFuncCall
  | [(funcName, funcDetails)] =>
    match parseFuncDetails funcName funcDetails with
    | .error e => .error ("error parsing nested function " ++ funcName ++ ": " ++ e)
    | .ok c => .ok c
  | _ => .error (ErrInvalidJSON ++ ": nested function call should contain exactly one key-value pair")

/-- `parser.parseFuncDetails`: details must be a map with a string `purpose`
and a map `args`. -/
def parseFuncDetails (funcName : String) : GoValue → Except String PlannedFuncCall
  | .obj detailsMap =>
    match alookup "purpose" detailsMap with
    | some (.str purpose) =>
      match findAndParseArgs detailsMap with
      | some (.ok parsedArgs) => .ok ⟨funcName, purpose, parsedArgs⟩
      | some (.error e) => .error e
      | none => .error (ErrInvalidJSON ++ ": args not found or not a map")
    | _ => .error (ErrInvalidJSON ++ ": purpose not found or not a string")
  | _ => .error (ErrInvalidJSON ++ ": function details not a map")

/-- The lookup-and-type-assert `detailsMap["args"].(map[string]interface{})`
fused with `parseArgs`. -/
def findAndParseArgs : List (String × GoValue) → Option (Except String (List (String × PlannedArg)))
  | [] => none
  | (k, v) :: rest =>
    if k = "args" then
      match v with
      | .obj argsMap => some (parseArgs argsMap)
      | _ => none
    else findAndParseArgs rest

end

/-- The observable outcome of a Go `execution.FormatFunc` closure
`func() (string, error)`. -/
abbrev FormatFn := Except String String

/-- `execution.FuncResult`. -/
structure FuncResult where
  present : Bool
  value : GoValue
  formatFunc : Option FormatFn
  metadata : GoValue

/-- `execution.Arg`, the tagged variant `ValueArg`/`FuncArg`; the owned
`*ExecutedFuncCall` of a `FuncArg` is inlined field by field. -/
inductive ExecArg where
  | valueArg (v : GoValue)
  | funcArg (name purpose : String) (args : List (String × ExecArg)) (result : FuncResult)

/-- `execution.ExecutedFuncCall`. -/
structure ExecutedFuncCall where
  name : String
  purpose : String
  args : List (String × ExecArg)
  result : FuncResult

/-- `execution.NewFuncArg` applied to an executed call. -/
def ExecArg.ofCall (c : ExecutedFuncCall) : ExecArg :=
  .funcArg c.name c.purpose c.args c.result

/-- `execution.GetFuncCall`: the `FuncArg` projection. -/
def GetFuncCall : ExecArg → Option ExecutedFuncCall
  | .valueArg _ => none
  | .funcArg n p a r => some ⟨n, p, a, r⟩

/-- `execution.GetValue`: the `ValueArg` projection. -/
def GetValue : ExecArg → Option GoValue
  | .valueArg v => some v
  | .funcArg _ _ _ _ => none

/-- The errors produced inside the core: `execution.Error` (function name,
optional argument name, wrapped inner error — the struct declares NO `Unwrap`
method), `execution.FormattableError`, and plain `fmt.Errorf` errors. -/
inductive GoError where
  | funcError (funcName argName : String) (inner : GoError)
  | formattable (formatFunc : FormatFn)
  | simple (msg : String)

/-- The `Error()` rendering of a `GoError` (`execution.Error.Error` and
`execution.FormattableError.Error`). -/
def GoError.message : GoError → String
  | .funcError f "" inner => "error in function " ++ f ++ ": " ++ inner.message
  | .funcError f a inner =>
    "error in function " ++ f ++ " for argument " ++ a ++ ": " ++ inner.message
  | .formattable ff =>
    match ff with
    | .ok s => s
    | .error e => "FormattableError<FormatFunc error: " ++ e ++ ">"
  | .simple msg => msg

/-- `execution.AsFormattableError`, i.e. `errors.As(err, &f)` for
`f *FormattableError`.  `errors.As` inspects the chain consisting of the error
itself followed by repeated `Unwrap()` results; `execution.Error` defines no
`Unwrap` method (and no `As` method), so the chain stops at the error itself
and the match succeeds only when the error value IS a `*FormattableError`. -/
def AsFormattableError : GoError → Option FormatFn
  | .formattable ff => some ff
  | _ => none

/-- The observable outcome of running one executor under the orchestrator's
per-call timeout: the `FuncResult` it delivered, the error it returned, or the
timeout firing first (`ctx.Done()` winning the `select`). -/
inductive ExecOutcome where
  | ok (r : FuncResult)
  | err (msg : String)
  | timeout

/-- `execution.FuncExecutor`, restricted as in the claims to a deterministic
function of its materialized arguments (context and progress stream carry no
data into the result). -/
abbrev FuncExecutor := List (String × GoValue) → ExecOutcome

/-- The orchestrator's immutable part: the executor registry
(`Orchestrator.Functions`) and the tool definitions (`Orchestrator.ToolSet`). -/
structure ExecEnv where
  functions : String → Option FuncExecutor
  toolSet : ToolSet

/-- The orchestrator's mutable part: the memoization cache
(`Orchestrator.Memo`), keyed by fingerprint. -/
structure OrchState where
  memo : List (String × FuncResult)

/-- One executor invocation, recorded for the memoization claims: the
fingerprint and materialized args it ran with, and its outcome. -/
structure Invocation where
  fp : String
  name : String
  args : List (String × GoValue)
  outcome : ExecOutcome

mutual

/-- `json.Marshal` of a decoded value, as used by `generateFingerprint`
(string escaping is irrelevant to the claims and elided). -/
def renderJson : GoValue → String
  | .null => "null"
  | .bool b => if b then "true" else "false"
  | .num n => toString n
  | .str s => "\"" ++ s ++ "\""
  | .arr xs => "[" ++ renderList xs ++ "]"
  | .obj fs => "\x7b" ++ renderFields fs ++ "\x7d"

/-- Array elements of `renderJson`. -/
def renderList : List GoValue → String
  | [] => ""
  | [x] => renderJson x
  | x :: rest => renderJson x ++ "," ++ renderList rest

/-- Object fields of `renderJson`. -/
def renderFields : List (String × GoValue) → String
  | [] => ""
  | [(k, v)] => "\"" ++ k ++ "\":" ++ renderJson v
  | (k, v) :: rest => "\"" ++ k ++ "\":" ++ renderJson v ++ "," ++ renderFields rest

end

/-- `json.Marshal` serializes a Go map with its keys sorted; this is the
canonical form of the `Args` map inside a fingerprint. -/
def canonArgs (args : List (String × GoValue)) : List (String × GoValue) :=
  (List.insertionSort (· ≤ ·) (args.map Prod.fst)).map
    (fun k => (k, (alookup k args).getD .null))

/-- `execution.generateFingerprint`: the canonical serialization of
`{Name, Args}`.  The Go code hashes this serialization with SHA-256; the hash
is a function of the serialized bytes, so fingerprint equalities are exactly
equalities of this string. -/
def generateFingerprint (functionName : String) (args : List (String × GoValue)) : String :=
  renderJson (.obj [("Name", .str functionName), ("Args", .obj (canonArgs args))])

/-- `execution.createProcessedArgs`: materialize the args, omitting a
`FuncArg` whose child result is not present. -/
def createProcessedArgs : List (String × ExecArg) → List (String × GoValue)
  | [] => []
  | (key, .valueArg v) :: rest => (key, v) :: createProcessedArgs rest
  | (key, .funcArg _ _ _ r) :: rest =>
    if r.present then (key, r.value) :: createProcessedArgs rest
    else createProcessedArgs rest

/-- `Orchestrator.checkRequiredArg`: `nil` result is `none`. -/
def checkRequiredArg (paramName : String) (args : List (String × ExecArg)) : Option GoError :=
  match alookup paramName args with
  | none => some (.simple ("missing argument for required parameter " ++ paramName))
  | some arg =>
    match GetFuncCall arg with
    | none => none
    | some funcCall =>
      if funcCall.result.present then none
      else
        match funcCall.result.formatFunc with
        | some ff => some (.formattable ff)
        | none => some (.simple ("missing argument for required parameter " ++ paramName
            ++ ": func call result is blank and has no FormatFunc"))

/-- The `Parameters.Required` loop of `Orchestrator.checkRequiredArgs`; the
first failure is wrapped in an `execution.Error` carrying the function and
parameter names. -/
def checkRequiredList (funcName : String) (args : List (String × ExecArg)) :
    List String → Option GoError
  | [] => none
  | p :: rest =>
    match checkRequiredArg p args with
    | some e => some (.funcError funcName p e)
    | none => checkRequiredList funcName args rest

/-- `Orchestrator.checkRequiredArgs`. -/
def checkRequiredArgs (env : ExecEnv) (funcName : String)
    (args : List (String × ExecArg)) : Option GoError :=
  match FindTool env.toolSet funcName with
  | none => some (.simple ("function schema not found for " ++ funcName))
  | some functionSchema => checkRequiredList funcName args functionSchema.parameters.required

/-- `execution.handleMissingRequiredArgsError`. -/
def handleMissingRequiredArgsError (err : GoError) (name purpose : String)
    (argsExecution : List (String × ExecArg)) : Except GoError ExecutedFuncCall :=
  match AsFormattableError err with
  | none => .error err
  | some fe => .ok ⟨name, purpose, argsExecution, ⟨false, .null, some fe, .null⟩⟩

/-- The non-recursive tail of `Orchestrator.executeFunc`, after the executor
lookup and argument processing: required-argument check, fingerprint, memo
lookup, executor invocation with memo store on success. -/
def finishCall (env : ExecEnv) (s : OrchState) (executor : FuncExecutor)
    (name purpose : String) (argsExecution : List (String × ExecArg)) :
    Except GoError ExecutedFuncCall × OrchState × List Invocation :=
  match checkRequiredArgs env name argsExecution with
  | some err => (handleMissingRequiredArgsError err name purpose argsExecution, s, [])
  | none =>
    let processedArgs := createProcessedArgs argsExecution
    let fp := generateFingerprint name processedArgs
    match alookup fp s.memo with
    | some result => (.ok ⟨name, purpose, argsExecution, result⟩, s, [])
    | none =>
      match executor processedArgs with
      | .ok result =>
        (.ok ⟨name, purpose, argsExecution, result⟩,
         ⟨s.memo ++ [(fp, result)]⟩,
         [⟨fp, name, processedArgs, .ok result⟩])
      | .err msg =>
        (.error (.funcError name "" (.simple msg)), s,
         [⟨fp, name, processedArgs, .err msg⟩])
      | .timeout =>
        (.error (.funcError name "" (.simple "function execution timed out")), s,
         [⟨fp, name, processedArgs, .timeout⟩])

mutual

/-- `Orchestrator.processArgs`: literals become `ValueArg`s; a nested
`PlannedFuncCall` is executed (the body of `Orchestrator.executeFunc` is
inlined here for the nested call so the recursion is structural) and becomes a
`FuncArg`; a nested failure is wrapped with the parent function and argument
names and aborts. -/
def processArgsList (env : ExecEnv) (s : OrchState) (parentName : String) :
    List (String × PlannedArg) →
    Except GoError (List (String × ExecArg)) × OrchState × List Invocation
  | [] => (.ok [], s, [])
  | (key, arg) :: rest =>
    match processOneArg env s parentName key arg with
    | (.error e, s₁, l₁) => (.error e, s₁, l₁)
    | (.ok ea, s₁, l₁) =>
      match processArgsList env s₁ parentName rest with
      | (.error e, s₂, l₂) => (.error e, s₂, l₁ ++ l₂)
      | (.ok eas, s₂, l₂) => (.ok ((key, ea) :: eas), s₂, l₁ ++ l₂)

/-- One argument of `Orchestrator.processArgs`.  For a nested call this is
`Orchestrator.executeFunc` verbatim: executor lookup (unknown function fails
before anything runs), recursive argument processing, then `finishCall`. -/
def processOneArg (env : ExecEnv) (s : OrchState) (parentName key : String) :
    PlannedArg → Except GoError ExecArg × OrchState × List Invocation
  | .lit v => (.ok (.valueArg v), s, [])
  | .call n p a =>
    match env.functions n with
    | none =>
      (.error (.funcError parentName key (.funcError n "" (.simple "unknown function"))), s, [])
    | some executor =>
      match processArgsList env s n a with
      | (.error e, s₁, l₁) => (.error (.funcError parentName key e), s₁, l₁)
      | (.ok childArgs, s₁, l₁) =>
        match finishCall env s₁ executor n p childArgs with
        | (.error e, s₂, l₂) => (.error (.funcError parentName key e), s₂, l₁ ++ l₂)
        | (.ok c, s₂, l₂) => (.ok (ExecArg.ofCall c), s₂, l₁ ++ l₂)

end

/-- `Orchestrator.executeFunc` on a top-level call. -/
def executeFunc (env : ExecEnv) (s : OrchState) (c : PlannedFuncCall) :
    Except GoError ExecutedFuncCall × OrchState × List Invocation :=
  match env.functions c.name with
  | none => (.error (.funcError c.name "" (.simple "unknown function")), s, [])
  | some executor =>
    match processArgsList env s c.name c.args with
    | (.error e, s₁, l₁) => (.error e, s₁, l₁)
    | (.ok argsExecution, s₁, l₁) =>
      match finishCall env s₁ executor c.name c.purpose argsExecution with
      | (r, s₂, l₂) => (r, s₂, l₁ ++ l₂)

/-- `Orchestrator.executeSeq`: top-level calls in input order, first failure
(wrapped in an `execution.Error` with the function's name) aborts. -/
def executeSeq (env : ExecEnv) (s : OrchState) :
    List PlannedFuncCall →
    Except GoError (List ExecutedFuncCall) × OrchState × List Invocation
  | [] => (.ok [], s, [])
  | c :: rest =>
    match executeFunc env s c with
    | (.error e, s₁, l₁) => (.error (.funcError c.name "" e), s₁, l₁)
    | (.ok funcExe, s₁, l₁) =>
      match executeSeq env s₁ rest with
      | (.error e, s₂, l₂) => (.error e, s₂, l₁ ++ l₂)
      | (.ok es, s₂, l₂) => (.ok (funcExe :: es), s₂, l₁ ++ l₂)

/-- `execution.Result`. -/
structure Result where
  funcCalls : List ExecutedFuncCall

/-- `Result.MainFuncResults`. -/
def MainFuncResults (e : Result) : List FuncResult :=
  e.funcCalls.map (fun f => f.result)

/-- `execution.DefaultSeparator`. -/
def DefaultSeparator : String := "\n\n---\n"

/-- The formatting loop of `FuncResults.Format`: results with a nil
`FormatFunc` are skipped; the first formatting error aborts with the wrapped
error and no output. -/
def collectFormatted : List FuncResult → Except String (List String)
  | [] => .ok []
  | r :: rest =>
    match r.formatFunc with
    | none => collectFormatted rest
    | some ff =>
      match ff with
      | .error e => .error ("error formatting result: " ++ e)
      | .ok buf => (collectFormatted rest).map (fun xs => buf :: xs)

/-- The duplicate-removal loop of `FuncResults.Format`, with the `seen` set
carried explicitly. -/
def removeDuplicates (seen : List String) : List String → List String
  | [] => []
  | s :: rest =>
    if s ∈ seen then removeDuplicates seen rest
    else s :: removeDuplicates (s :: seen) rest

/-- `FuncResults.Format`: Go returns the pair `(string, error)`, modelled as
the joined string together with an optional error message. -/
def Format (r : List FuncResult) (separator : String) : String × Option String :=
  let sep := if separator = "" then DefaultSeparator else separator
  match collectFormatted r with
  | .error e => ("", some e)
  | .ok formatted => (String.intercalate sep (removeDuplicates [] formatted), none)

/-- Reference form of first-occurrence deduplication, written from the claim:
keep each string's first occurrence and delete every later equal string. -/
def dedupKeepFirst : List String → List String
  | [] => []
  | x :: xs => x :: dedupKeepFirst (xs.filter (fun y => y ≠ x))
termination_by l => l.length
decreasing_by
  simp only [List.length_cons]
  exact Nat.lt_succ_of_le (List.length_filter_le _ _)

/-- Reference form of the formatted-strings stream, written from the claim:
the formatted strings of exactly the results with a non-nil `format_fn`, in
input order (meaningful when no `format_fn` fails). -/
def formattedOutputs (r : List FuncResult) : List String :=
  r.filterMap (fun x =>
    match x.formatFunc with
    | some (.ok s) => some s
    | _ => none)

/-- `handler.UnprocessableRequestPrompt`. -/
def UnprocessableRequestPrompt : String :=
  "Unable to process this request. Please rephrase or provide a different query."

/-- `handler.UnprocessableRequestExecutions`. -/
def UnprocessableRequestExecutions : Result :=
  ⟨[⟨"__builtin__.unprocessable_request",
     "Return a response for an unprocessable request",
     [],
     ⟨false, .null, some (.ok UnprocessableRequestPrompt), .null⟩⟩]⟩

mutual

/-- `PlannedFuncCall.CollectAllNestedFuncCalls` on a call's fields: the
call's own name followed by the names in its nested-call arguments. -/
def CollectAllNestedFuncCalls (name : String) (args : List (String × PlannedArg)) : List String :=
  name :: collectFromArgs args

/-- The argument loop of `CollectAllNestedFuncCalls`. -/
def collectFromArgs : List (String × PlannedArg) → List String
  | [] => []
  | (_, .lit _) :: rest => collectFromArgs rest
  | (_, .call n _ a) :: rest => CollectAllNestedFuncCalls n a ++ collectFromArgs rest

end

/-- The used-tools lookup loop of `RequestHandler.evaluateFuncCallsConsistency`:
every referenced name must resolve in the tool set. -/
def lookupUsedTools (ts : ToolSet) : List String → Except GoError (List FuncDefinition)
  | [] => .ok []
  | n :: rest =>
    match FindTool ts n with
    | some tool => (lookupUsedTools ts rest).map (fun xs => tool :: xs)
    | none => .error (.simple ("tool " ++ n ++ " not found"))

/-- The per-call body of `RequestHandler.evaluateFuncCallsConsistency`.  The
LLM round trip of `evaluateSingleFunctionCall` (prompt rendering, completion,
`{success:bool}` decoding) is external and abstracted by the `verdict`
oracle; the tool lookup and the keep-iff-true filtering are the code's. -/
def evalConsistencyLoop (ts : ToolSet) (verdict : PlannedFuncCall → Except GoError Bool) :
    List PlannedFuncCall → Except GoError (List PlannedFuncCall)
  | [] => .ok []
  | c :: rest =>
    match lookupUsedTools ts (CollectAllNestedFuncCalls c.name c.args) with
    | .error e => .error e
    | .ok _ =>
      match verdict c with
      | .error e => .error e
      | .ok true => (evalConsistencyLoop ts verdict rest).map (fun xs => c :: xs)
      | .ok false => evalConsistencyLoop ts verdict rest

/-- `RequestHandler.evaluateFuncCallsConsistency`: an empty plan short-circuits
to an empty result. -/
def evaluateFuncCallsConsistency (ts : ToolSet) (verdict : PlannedFuncCall → Except GoError Bool)
    (funcCalls : List PlannedFuncCall) : Except GoError (List PlannedFuncCall) :=
  match funcCalls with
  | [] => .ok []
  | _ :: _ => evalConsistencyLoop ts verdict funcCalls

/-- `handler.ProcessingResult`. -/
structure ProcessingResult where
  execution : Result

/-- `RequestHandler.executeFunctionCalls`. -/
def executeFunctionCalls (env : ExecEnv) (s : OrchState) (funcCalls : List PlannedFuncCall) :
    Except GoError Result × OrchState × List Invocation :=
  match funcCalls with
  | [] => (.error (.simple "no function calls to execute"), s, [])
  | _ :: _ =>
    match executeSeq env s funcCalls with
    | (.error e, s', l) => (.error e, s', l)
    | (.ok es, s', l) => (.ok ⟨es⟩, s', l)

/-- `RequestHandler.ProcessUserRequest` from the parsing stage on.  The LLM
planning round trip of `generateFunctionCalls` is external; its outcome (the
parsed plan, or a failure) is the `planned` input.  The `AlterUserRequest` and
`AlterResult` hooks are nil.  The orchestrator's memo state is threaded
through, as it belongs to the handler's orchestrator instance. -/
def ProcessUserRequest (env : ExecEnv) (verdict : PlannedFuncCall → Except GoError Bool)
    (s : OrchState) (planned : Except GoError (List PlannedFuncCall)) :
    Except GoError ProcessingResult × OrchState :=
  match planned with
  | .error e =>
    (.error (.simple ("error generating function calls: " ++ e.message)), s)
  | .ok funcCalls =>
    match evaluateFuncCallsConsistency env.toolSet verdict funcCalls with
    | .error e =>
      (.error (.simple ("error evaluating function calls consistency: " ++ e.message)), s)
    | .ok funcCalls =>
      match funcCalls with
      | [] => (.ok ⟨UnprocessableRequestExecutions⟩, s)
      | _ :: _ =>
        match executeFunctionCalls env s funcCalls with
        | (.error e, s', _) =>
          (.error (.simple ("error executing functions: " ++ e.message)), s')
        | (.ok exec, s', _) => (.ok ⟨exec⟩, s')

/-- A string `TypeInfo` leaf with no attributes. -/
def stringTypeInfo : TypeInfo := .mk "string" "" none [] [] [] ""

/-- Failing input for the recursive-call rule: `f` takes an argument of the
user-defined type `X` (so `X` is used as an argument type) but returns a plain
string, so no function returns `X`. -/
def c1ToolSet : ToolSet :=
  ⟨[⟨"f", "a function",
     .mk "object" "" none [("x", .mk "X" "" none [] [] [] "")] ["x"] [] "",
     stringTypeInfo⟩],
   [("X", .mk "object" "" none [("v", stringTypeInfo)] [] [] "")]⟩

/-- C1: the claim states that `$defs/X` is a `oneOf` of the base definition
and a `$ref` to `$defs/func_call_returning_X` exactly when some function
returns `X` and `X` is used as an argument type, and that when no function
returns `X` the definition `$defs/X` stays the plain base so the schema never
contains a `$ref` to an undefined `func_call_returning_X`.  The code instead
guards the `oneOf` wrapper in `generateTypeDefinition` by
`isUsedAsArgumentType` alone: on `c1ToolSet` (where `X` is an argument type
but nothing returns `X`) it emits the wrapper with a `$ref` to
`func_call_returning_X` while `generateFuncCallReturningDefinitions` defines
no such entry, leaving a dangling reference — the schema is not a valid
draft-07 document there, contradicting the documented purpose of the
generator. -/
theorem c1_dangling_wrapper :
    alookup "X" (schemaDefs c1ToolSet) =
      some (.obj [("oneOf", .arr
        [.obj [("type", .str "object"),
               ("properties", .obj [("v", .obj [("type", .str "string")])]),
               ("additionalProperties", .bool false)],
         .obj [("$ref", .str "#/$defs/func_call_returning_X")]])])
    ∧ alookup "func_call_returning_X" (schemaDefs c1ToolSet) = none
    ∧ c1ToolSet.functions.all (fun f => f.returns.type != "X") = true
    ∧ isUsedAsArgumentType c1ToolSet "X" = true :=
  ⟨rfl, rfl, rfl, rfl⟩

/-- Tool set for the required-argument policy: `f` has the single required
parameter `k`; `g` and `h` are parameterless helpers that `f` can take nested
calls of. -/
def c2ToolSet : ToolSet :=
  ⟨[⟨"f", "", .mk "object" "" none [("k", stringTypeInfo)] ["k"] [] "", stringTypeInfo⟩,
    ⟨"g", "", .mk "object" "" none [] [] [] "", stringTypeInfo⟩,
    ⟨"h", "", .mk "object" "" none [] [] [] "", stringTypeInfo⟩],
   []⟩

/-- The child's `FormatFunc` outcome in the formattable-missing scenario. -/
def c2FormatFn : FormatFn := .ok "no data found for g"

/-- Executors: `g` resolves with `present=false` and a non-nil `FormatFunc`;
`h` resolves with `present=false` and a nil `FormatFunc`; `f` succeeds. -/
def c2Env : ExecEnv :=
  ⟨fun n =>
    if n = "f" then some (fun _ => .ok ⟨true, .str "fv", none, .null⟩)
    else if n = "g" then some (fun _ => .ok ⟨false, .null, some c2FormatFn, .null⟩)
    else if n = "h" then some (fun _ => .ok ⟨false, .null, none, .null⟩)
    else none,
   c2ToolSet⟩

/-- C2: required-argument policy for a tool `f` with `required=[k]`.
Cases (a), (b) and (d) hold as claimed: omitting `k` or supplying it as a
nested call that resolves absent with nil `format_fn` yields a
`MISSING_REQUIRED` error naming `f` and `k`, while a literal or a present
child passes the check and `f` executes.  Case (c) is where the claim fails
on the code: the child `g` resolves with `present=false` and a NON-nil
`format_fn`, `checkRequiredArg` raises a `FormattableError`, but
`checkRequiredArgs` wraps it in an `execution.Error` which has no `Unwrap`
method, so `errors.As` inside `AsFormattableError` cannot reach the
`FormattableError` and `handleMissingRequiredArgsError` re-raises the error
instead of returning the claimed non-error `ExecutedFuncCall` inheriting the
child's `format_fn`.  The claim matches the evident intent of
`handleMissingRequiredArgsError` (which is otherwise unreachable dead code)
and the spec; the missing `Unwrap` is the code bug. -/
theorem c2_required_arg_policy :
    (executeFunc c2Env ⟨[]⟩ ⟨"f", "p", []⟩).1 =
      .error (.funcError "f" "k" (.simple "missing argument for required parameter k"))
    ∧ (executeFunc c2Env ⟨[]⟩ ⟨"f", "p", [("k", .call "h" "ph" [])]⟩).1 =
      .error (.funcError "f" "k" (.simple
        ("missing argument for required parameter k"
          ++ ": func call result is blank and has no FormatFunc")))
    ∧ (executeFunc c2Env ⟨[]⟩ ⟨"f", "p", [("k", .call "g" "pg" [])]⟩).1 =
      .error (.funcError "f" "k" (.formattable c2FormatFn))
    ∧ (executeFunc c2Env ⟨[]⟩ ⟨"f", "p", [("k", .lit (.str "v"))]⟩).1 =
      .ok ⟨"f", "p", [("k", .valueArg (.str "v"))], ⟨true, .str "fv", none, .null⟩⟩ :=
  ⟨rfl, rfl, rfl, rfl⟩

/-- `findAndParseFuncCall` is the map access `v["func_call"]` followed by the
map type-assertion and the recursive parse. -/
theorem findAndParseFuncCall_eq : ∀ (fields : List (String × GoValue)),
    findAndParseFuncCall fields =
      match alookup "func_call" fields with
      | some (.obj fc) => some (parseNestedFunc fc)
      | some _ => none
      | none => none
  | [] => rfl
  | (k, v) :: rest => by
    rw [findAndParseFuncCall.eq_def]
    show (if k = "func_call" then
            match v with
            | GoValue.obj fc => some (parseNestedFunc fc)
            | _ => none
          else findAndParseFuncCall rest)
        = (match (if k = "func_call" then some v else alookup "func_call" rest) with
           | some (GoValue.obj fc) => some (parseNestedFunc fc)
           | some _ => none
           | none => none)
    by_cases h : k = "func_call"
    · rw [if_pos h, if_pos h]
      cases v <;> rfl
    · rw [if_neg h, if_neg h, findAndParseFuncCall_eq rest]

/-- `parseNestedFunc` rejects every mapping that is not single-entry. -/
theorem parseNestedFunc_not_single (fc : List (String × GoValue)) (h : fc.length ≠ 1) :
    parseNestedFunc fc =
      .error (ErrInvalidJSON ++ ": nested function call should contain exactly one key-value pair") := by
  match fc with
  | [] => rfl
  | [(n, d)] => exact absurd rfl h
  | (a :: b :: rest) => rfl

/-- C4 counterexample: an argument object whose `func_call` value is a
mapping with zero entries makes the parser fail with `INVALID_JSON`; the
claim says it would be stored as-is without error. -/
theorem c4_counterexample :
    parseArgs [("a", .obj [("func_call", .obj [])])] =
      .error ("error parsing nested function for arg a: " ++ ErrInvalidJSON
        ++ ": nested function call should contain exactly one key-value pair") :=
  rfl

/-- C4 (amended): for an argument value that is an object containing the key
`func_call`: when the `func_call` value is a single-entry mapping the parser
recurses and stores the resulting `PlannedFuncCall`; when the `func_call`
value is a mapping with zero or more than one entry the parser fails with an
`INVALID_JSON` error (it does NOT store the object as a literal); only when
the object has no `func_call` key, or its `func_call` value is not a mapping,
is the object stored as-is as a literal argument. -/
theorem c4_func_call_object_policy (key : String) (fields : List (String × GoValue))
    (rest : List (String × GoValue)) :
    (∀ fc, alookup "func_call" fields = some (.obj fc) → fc.length ≠ 1 →
      parseArgs ((key, .obj fields) :: rest) =
        .error ("error parsing nested function for arg " ++ key ++ ": " ++ ErrInvalidJSON
          ++ ": nested function call should contain exactly one key-value pair"))
    ∧ (∀ n d c tail, alookup "func_call" fields = some (.obj [(n, d)]) →
        parseFuncDetails n d = .ok c → parseArgs rest = .ok tail →
        parseArgs ((key, .obj fields) :: rest) = .ok ((key, PlannedArg.ofCall c) :: tail))
    ∧ ((match alookup "func_call" fields with
        | some (.obj _) => False
        | some _ => True
        | none => True) →
        parseArgs ((key, .obj fields) :: rest) =
          (parseArgs rest).map (fun xs => (key, .lit (.obj fields)) :: xs)) := by
  refine ⟨fun fc hfc hlen => ?_, fun n d c tail hfc hd hrest => ?_, fun hnone => ?_⟩
  · simp only [parseArgs, findAndParseFuncCall_eq, hfc, parseNestedFunc_not_single fc hlen,
      String.append_assoc]
  · simp only [parseArgs, findAndParseFuncCall_eq, hfc, parseNestedFunc, hd, hrest,
      Except.map]
  · rcases halk : alookup "func_call" fields with _ | v'
    · simp only [parseArgs, findAndParseFuncCall_eq, halk]
    · rw [halk] at hnone
      cases v' with
      | obj fc => exact absurd hnone (by simp)
      | null => simp only [parseArgs, findAndParseFuncCall_eq, halk]
      | bool b => simp only [parseArgs, findAndParseFuncCall_eq, halk]
      | num n => simp only [parseArgs, findAndParseFuncCall_eq, halk]
      | str s => simp only [parseArgs, findAndParseFuncCall_eq, halk]
      | arr xs => simp only [parseArgs, findAndParseFuncCall_eq, halk]

/-- Witness for C4's amended theorem at concrete inputs: a well-formed
single-entry `func_call` recurses into a stored nested call, and a two-entry
`func_call` mapping is rejected. -/
theorem c4_func_call_object_policy_witness :
    parseArgs [("a", .obj [("func_call", .obj
        [("f", .obj [("purpose", .str "p"), ("args", .obj [])])])])] =
      .ok [("a", PlannedArg.ofCall ⟨"f", "p", []⟩)]
    ∧ parseArgs [("b", .obj [("func_call", .obj
        [("f", .obj []), ("g", .obj [])])])] =
      .error ("error parsing nested function for arg b: " ++ ErrInvalidJSON
        ++ ": nested function call should contain exactly one key-value pair") :=
  ⟨(c4_func_call_object_policy "a"
      [("func_call", .obj [("f", .obj [("purpose", .str "p"), ("args", .obj [])])])] []).2.1
      "f" (.obj [("purpose", .str "p"), ("args", .obj [])]) ⟨"f", "p", []⟩ [] rfl rfl rfl,
   (c4_func_call_object_policy "b"
      [("func_call", .obj [("f", .obj []), ("g", .obj [])])] []).1
      [("f", .obj []), ("g", .obj [])] rfl (by decide)⟩

/-- Unpacking `Except.map f x = ok b`. -/
theorem except_map_ok {α β : Type} (f : α → β) (x : Except String α) (b : β)
    (h : x.map f = .ok b) : ∃ a, x = .ok a ∧ b = f a := by
  cases x with
  | error e => simp [Except.map] at h
  | ok a =>
    simp only [Except.map, Except.ok.injEq] at h
    exact ⟨a, rfl, h.symm⟩

/-- A key absent from the input args is absent from the parsed args. -/
theorem parseArgs_alookup_none : ∀ (l : List (String × GoValue)) (out : List (String × PlannedArg))
    (k : String), parseArgs l = .ok out → k ∉ l.map Prod.fst → alookup k out = none
  | [], out, k, h, _ => by
    rw [show parseArgs [] = Except.ok [] from rfl] at h
    cases h
    rfl
  | (k₀, v₀) :: rest, out, k, h, hk => by
    have hk₀ : ¬(k₀ = k) := fun e => hk (by simp [e])
    have hkr : k ∉ rest.map Prod.fst := fun e => hk (by simp [e])
    cases v₀ with
    | null =>
      simp only [parseArgs] at h
      obtain ⟨tail, hrest, rfl⟩ := except_map_ok _ _ _ h
      simp only [alookup, if_neg hk₀]
      exact parseArgs_alookup_none rest tail k hrest hkr
    | bool b =>
      simp only [parseArgs] at h
      obtain ⟨tail, hrest, rfl⟩ := except_map_ok _ _ _ h
      simp only [alookup, if_neg hk₀]
      exact parseArgs_alookup_none rest tail k hrest hkr
    | num n =>
      simp only [parseArgs] at h
      obtain ⟨tail, hrest, rfl⟩ := except_map_ok _ _ _ h
      simp only [alookup, if_neg hk₀]
      exact parseArgs_alookup_none rest tail k hrest hkr
    | arr xs =>
      simp only [parseArgs] at h
      obtain ⟨tail, hrest, rfl⟩ := except_map_ok _ _ _ h
      simp only [alookup, if_neg hk₀]
      exact parseArgs_alookup_none rest tail k hrest hkr
    | str s =>
      simp only [parseArgs] at h
      by_cases hs : s = ""
      · rw [if_pos hs] at h
        exact parseArgs_alookup_none rest out k h hkr
      · rw [if_neg hs] at h
        obtain ⟨tail, hrest, rfl⟩ := except_map_ok _ _ _ h
        simp only [alookup, if_neg hk₀]
        exact parseArgs_alookup_none rest tail k hrest hkr
    | obj fields =>
      simp only [parseArgs] at h
      rcases hf : findAndParseFuncCall fields with _ | er
      · rw [hf] at h
        obtain ⟨tail, hrest, rfl⟩ := except_map_ok _ _ _ h
        simp only [alookup, if_neg hk₀]
        exact parseArgs_alookup_none rest tail k hrest hkr
      · cases er with
        | error e => rw [hf] at h; cases h
        | ok c =>
          rw [hf] at h
          obtain ⟨tail, hrest, rfl⟩ := except_map_ok _ _ _ h
          simp only [alookup, if_neg hk₀]
          exact parseArgs_alookup_none rest tail k hrest hkr

/-- Lookup at the stored head. -/
theorem alookup_cons_self {ν : Type} (k : String) (z : ν) (tail : List (String × ν)) :
    alookup k ((k, z) :: tail) = some z := by
  simp [alookup]

/-- Lookup skips a head with a different key. -/
theorem alookup_cons_ne {ν : Type} (k₀ k : String) (z : ν) (tail : List (String × ν))
    (h : ¬(k₀ = k)) : alookup k ((k₀, z) :: tail) = alookup k tail := by
  simp [alookup, h]

/-- C10: the parser's empty-string dropping applies only to argument values
that are themselves strings.  For an argument entry `(k, v)` of a
successfully parsed args map: the parsed map lacks `k` exactly when `v` is
the empty string; an array value — even one containing empty strings — is
stored as-is; an object literal without a `func_call` mapping — even one
containing empty strings — is stored as-is; and a non-empty string is stored
as-is. -/
theorem c10_empty_string_drop : ∀ (args : List (String × GoValue))
    (parsed : List (String × PlannedArg)) (k : String) (v : GoValue),
    (args.map Prod.fst).Nodup → (k, v) ∈ args → parseArgs args = .ok parsed →
    ((alookup k parsed = none ↔ v = .str "")
     ∧ (∀ xs, v = .arr xs → alookup k parsed = some (.lit (.arr xs)))
     ∧ (∀ fields, v = .obj fields → findAndParseFuncCall fields = none →
         alookup k parsed = some (.lit (.obj fields)))
     ∧ (∀ s, v = .str s → ¬s = "" → alookup k parsed = some (.lit (.str s))))
  | [], parsed, k, v, _, hmem, _ => absurd hmem (List.not_mem_nil _)
  | (k₀, v₀) :: rest, parsed, k, v, hnd, hmem, hok => by
    have hnd₀ : k₀ ∉ rest.map Prod.fst := by
      simp only [List.map_cons, List.nodup_cons] at hnd
      exact hnd.1
    have hndr : (rest.map Prod.fst).Nodup := by
      simp only [List.map_cons, List.nodup_cons] at hnd
      exact hnd.2
    rcases List.mem_cons.mp hmem with heq | hmemr
    · cases heq
      cases v₀ with
      | null =>
        simp only [parseArgs] at hok
        obtain ⟨tail, hrest, rfl⟩ := except_map_ok _ _ _ hok
        refine ⟨?_, ?_, ?_, ?_⟩
        · simp [alookup_cons_self]
        · intro xs h
          cases h
        · intro fields h
          cases h
        · intro s h
          cases h
      | bool b =>
        simp only [parseArgs] at hok
        obtain ⟨tail, hrest, rfl⟩ := except_map_ok _ _ _ hok
        refine ⟨?_, ?_, ?_, ?_⟩
        · simp [alookup_cons_self]
        · intro xs h
          cases h
        · intro fields h
          cases h
        · intro s h
          cases h
      | num n =>
        simp only [parseArgs] at hok
        obtain ⟨tail, hrest, rfl⟩ := except_map_ok _ _ _ hok
        refine ⟨?_, ?_, ?_, ?_⟩
        · simp [alookup_cons_self]
        · intro xs h
          cases h
        · intro fields h
          cases h
        · intro s h
          cases h
      | arr xs =>
        simp only [parseArgs] at hok
        obtain ⟨tail, hrest, rfl⟩ := except_map_ok _ _ _ hok
        refine ⟨?_, ?_, ?_, ?_⟩
        · simp [alookup_cons_self]
        · intro ys h
          cases h
          exact alookup_cons_self _ _ _
        · intro fields h
          cases h
        · intro s h
          cases h
      | str s =>
        simp only [parseArgs] at hok
        by_cases hs : s = ""
        · rw [if_pos hs] at hok
          subst hs
          have hnone : alookup k₀ parsed = none :=
            parseArgs_alookup_none rest parsed k₀ hok hnd₀
          refine ⟨?_, ?_, ?_, ?_⟩
          · simp [hnone]
          · intro xs h
            cases h
          · intro fields h
            cases h
          · intro s' h h'
            cases h
            exact absurd rfl h'
        · rw [if_neg hs] at hok
          obtain ⟨tail, hrest, rfl⟩ := except_map_ok _ _ _ hok
          refine ⟨?_, ?_, ?_, ?_⟩
          · simp [alookup_cons_self, hs]
          · intro xs h
            cases h
          · intro fields h
            cases h
          · intro s' h h'
            cases h
            exact alookup_cons_self _ _ _
      | obj fields =>
        simp only [parseArgs] at hok
        rcases hf : findAndParseFuncCall fields with _ | er
        · rw [hf] at hok
          obtain ⟨tail, hrest, rfl⟩ := except_map_ok _ _ _ hok
          refine ⟨?_, ?_, ?_, ?_⟩
          · simp [alookup_cons_self]
          · intro xs h
            cases h
          · intro fields' h _
            cases h
            exact alookup_cons_self _ _ _
          · intro s h
            cases h
        · cases er with
          | error e => rw [hf] at hok; cases hok
          | ok c =>
            rw [hf] at hok
            obtain ⟨tail, hrest, rfl⟩ := except_map_ok _ _ _ hok
            refine ⟨?_, ?_, ?_, ?_⟩
            · simp [alookup_cons_self]
            · intro xs h
              cases h
            · intro fields' h hnone
              cases h
              rw [hf] at hnone
              cases hnone
            · intro s h
              cases h
    · have hkmem : k ∈ rest.map Prod.fst := List.mem_map_of_mem Prod.fst hmemr
      have hk : ¬(k₀ = k) := fun e => hnd₀ (e ▸ hkmem)
      cases v₀ with
      | null =>
        simp only [parseArgs] at hok
        obtain ⟨tail, hrest, rfl⟩ := except_map_ok _ _ _ hok
        simp only [alookup_cons_ne _ _ _ _ hk]
        exact c10_empty_string_drop rest tail k v hndr hmemr hrest
      | bool b =>
        simp only [parseArgs] at hok
        obtain ⟨tail, hrest, rfl⟩ := except_map_ok _ _ _ hok
        simp only [alookup_cons_ne _ _ _ _ hk]
        exact c10_empty_string_drop rest tail k v hndr hmemr hrest
      | num n =>
        simp only [parseArgs] at hok
        obtain ⟨tail, hrest, rfl⟩ := except_map_ok _ _ _ hok
        simp only [alookup_cons_ne _ _ _ _ hk]
        exact c10_empty_string_drop rest tail k v hndr hmemr hrest
      | arr xs =>
        simp only [parseArgs] at hok
        obtain ⟨tail, hrest, rfl⟩ := except_map_ok _ _ _ hok
        simp only [alookup_cons_ne _ _ _ _ hk]
        exact c10_empty_string_drop rest tail k v hndr hmemr hrest
      | str s =>
        simp only [parseArgs] at hok
        by_cases hs : s = ""
        · rw [if_pos hs] at hok
          exact c10_empty_string_drop rest parsed k v hndr hmemr hok
        · rw [if_neg hs] at hok
          obtain ⟨tail, hrest, rfl⟩ := except_map_ok _ _ _ hok
          simp only [alookup_cons_ne _ _ _ _ hk]
          exact c10_empty_string_drop rest tail k v hndr hmemr hrest
      | obj fields =>
        simp only [parseArgs] at hok
        rcases hf : findAndParseFuncCall fields with _ | er
        · rw [hf] at hok
          obtain ⟨tail, hrest, rfl⟩ := except_map_ok _ _ _ hok
          simp only [alookup_cons_ne _ _ _ _ hk]
          exact c10_empty_string_drop rest tail k v hndr hmemr hrest
        · cases er with
          | error e => rw [hf] at hok; cases hok
          | ok c =>
            rw [hf] at hok
            obtain ⟨tail, hrest, rfl⟩ := except_map_ok _ _ _ hok
            simp only [alookup_cons_ne _ _ _ _ hk]
            exact c10_empty_string_drop rest tail k v hndr hmemr hrest

/-- Witness for C10 at a concrete input: the top-level empty string under
`a` is dropped, while the array under `b` keeps its inner empty string and
the object literal under `c` keeps its inner empty string. -/
theorem c10_empty_string_drop_witness :
    (alookup "a" [("b", PlannedArg.lit (.arr [.str ""]))] = none ↔
      GoValue.str "" = GoValue.str "")
    ∧ alookup "b" [("b", PlannedArg.lit (.arr [.str ""]))] =
        some (.lit (.arr [.str ""])) :=
  ⟨(c10_empty_string_drop [("a", .str ""), ("b", .arr [.str ""])]
      [("b", PlannedArg.lit (.arr [.str ""]))] "a" (.str "")
      (by decide) (by simp) rfl).1,
   (c10_empty_string_drop [("a", .str ""), ("b", .arr [.str ""])]
      [("b", PlannedArg.lit (.arr [.str ""]))] "b" (.arr [.str ""])
      (by decide) (by simp) rfl).2.1 [.str ""] rfl⟩

/-- Under a not-yet-seen set, the Go duplicate-removal loop computes the
reference first-occurrence deduplication of the unseen elements. -/
theorem removeDuplicates_eq : ∀ (l seen : List String),
    removeDuplicates seen l = dedupKeepFirst (l.filter (fun y => decide (y ∉ seen)))
  | [], seen => by simp [removeDuplicates, dedupKeepFirst]
  | s :: rest, seen => by
    by_cases hs : s ∈ seen
    · rw [show removeDuplicates seen (s :: rest) = removeDuplicates seen rest from by
        simp [removeDuplicates, hs]]
      rw [removeDuplicates_eq rest seen]
      congr 1
      simp [List.filter_cons, hs]
    · rw [show removeDuplicates seen (s :: rest)
          = s :: removeDuplicates (s :: seen) rest from by simp [removeDuplicates, hs]]
      rw [removeDuplicates_eq rest (s :: seen)]
      have hfil : List.filter (fun y => decide (y ∉ seen)) (s :: rest)
          = s :: List.filter (fun y => decide (y ∉ seen)) rest := by
        simp [List.filter_cons, hs]
      rw [hfil]
      rw [show dedupKeepFirst (s :: List.filter (fun y => decide (y ∉ seen)) rest)
          = s :: dedupKeepFirst ((List.filter (fun y => decide (y ∉ seen)) rest).filter
              (fun y => y ≠ s)) from by rw [dedupKeepFirst]]
      congr 1
      rw [List.filter_filter]
      congr 1
      apply List.filter_congr
      intro a _
      by_cases h1 : a = s <;> by_cases h2 : a ∈ seen <;> simp [h1, h2]

/-- When no `format_fn` fails, the formatting loop collects exactly the
outputs of the non-nil format functions, in input order. -/
theorem collectFormatted_ok : ∀ (r : List FuncResult),
    (∀ x ∈ r, ∀ e, x.formatFunc ≠ some (.error e)) →
    collectFormatted r = .ok (formattedOutputs r)
  | [], _ => rfl
  | x :: rest, h => by
    have hrest := collectFormatted_ok rest (fun y hy => h y (List.mem_cons_of_mem x hy))
    rcases hff : x.formatFunc with _ | ff
    · simp only [collectFormatted, hff, hrest, formattedOutputs, List.filterMap_cons]
    · cases ff with
      | error e => exact absurd hff (h x (List.mem_cons_self x rest) e)
      | ok s =>
        simp only [collectFormatted, hff, hrest, formattedOutputs, List.filterMap_cons,
          Except.map]

/-- C7: `Format` joins, with the given separator (or the default when it is
empty), the formatted strings of exactly those results with a non-nil
`format_fn`, in input order, with any string equal to an earlier formatted
string removed and the first occurrence kept (`dedupKeepFirst`), returning no
error.  Stated for inputs whose format functions all succeed. -/
theorem c7_format_joins_dedup (r : List FuncResult) (sep : String)
    (h : ∀ x ∈ r, ∀ e, x.formatFunc ≠ some (.error e)) :
    Format r sep =
      (String.intercalate (if sep = "" then DefaultSeparator else sep)
        (dedupKeepFirst (formattedOutputs r)), none) := by
  have hdedup : removeDuplicates [] (formattedOutputs r)
      = dedupKeepFirst (formattedOutputs r) := by
    rw [removeDuplicates_eq]
    congr 1
    apply List.filter_eq_self.mpr
    intro a _
    simp
  simp only [Format, collectFormatted_ok r h, hdedup]

/-- Concrete input for the C7 witness: a silent result and a duplicated
formatted string. -/
def c7Results : List FuncResult :=
  [⟨true, .null, some (.ok "A"), .null⟩,
   ⟨true, .null, none, .null⟩,
   ⟨false, .null, some (.ok "A"), .null⟩,
   ⟨true, .null, some (.ok "B"), .null⟩]

/-- Witness for C7 at a concrete input, with the hypothesis discharged and
the join evaluated: the duplicate "A" collapses and the default separator is
used for the empty separator argument. -/
theorem c7_format_joins_dedup_witness :
    Format c7Results "" =
      (String.intercalate (if "" = "" then DefaultSeparator else "")
        (dedupKeepFirst (formattedOutputs c7Results)), none)
    ∧ Format c7Results "" = ("A\n\n---\nB", none) :=
  ⟨c7_format_joins_dedup c7Results ""
    (by
      intro x hx e
      simp only [c7Results, List.mem_cons, List.not_mem_nil, or_false] at hx
      rcases hx with rfl | rfl | rfl | rfl <;> simp),
   rfl⟩

/-- If some result's `format_fn` fails, the formatting loop aborts with the
wrapped error of the first failing result. -/
theorem collectFormatted_error : ∀ (r : List FuncResult),
    (∃ x ∈ r, ∃ e, x.formatFunc = some (.error e)) →
    ∃ e, (∃ x ∈ r, x.formatFunc = some (.error e))
      ∧ collectFormatted r = .error ("error formatting result: " ++ e)
  | [], h => absurd h (by simp)
  | x :: rest, h => by
    rcases hff : x.formatFunc with _ | ff
    · obtain ⟨y, hy, e, hye⟩ := h
      rcases List.mem_cons.mp hy with rfl | hyr
      · rw [hff] at hye
        cases hye
      · obtain ⟨e', he', hcoll⟩ := collectFormatted_error rest ⟨y, hyr, e, hye⟩
        obtain ⟨z, hz, hze⟩ := he'
        refine ⟨e', ⟨z, List.mem_cons_of_mem x hz, hze⟩, ?_⟩
        simp only [collectFormatted, hff, hcoll]
    · cases ff with
      | error e =>
        exact ⟨e, ⟨x, List.mem_cons_self x rest, hff⟩,
          by simp only [collectFormatted, hff]⟩
      | ok s =>
        obtain ⟨y, hy, e, hye⟩ := h
        rcases List.mem_cons.mp hy with rfl | hyr
        · rw [hff] at hye
          simp at hye
        · obtain ⟨e', he', hcoll⟩ := collectFormatted_error rest ⟨y, hyr, e, hye⟩
          obtain ⟨z, hz, hze⟩ := he'
          refine ⟨e', ⟨z, List.mem_cons_of_mem x hz, hze⟩, ?_⟩
          simp only [collectFormatted, hff, hcoll, Except.map]

/-- C9: if any result in the sequence has a non-nil `format_fn` that returns
an error, `Format` returns the empty string together with an error wrapping a
formatting error from the sequence — no partial joined output is produced. -/
theorem c9_format_error_aborts (r : List FuncResult) (sep : String)
    (h : ∃ x ∈ r, ∃ e, x.formatFunc = some (.error e)) :
    ∃ e, (∃ x ∈ r, x.formatFunc = some (.error e))
      ∧ Format r sep = ("", some ("error formatting result: " ++ e)) := by
  obtain ⟨e, hw, hcoll⟩ := collectFormatted_error r h
  exact ⟨e, hw, by simp only [Format, hcoll]⟩

/-- Concrete input for the C9 witness: the second result's format function
fails. -/
def c9Results : List FuncResult :=
  [⟨true, .null, some (.ok "A"), .null⟩,
   ⟨true, .null, some (.error "boom"), .null⟩]

/-- Witness for C9 at a concrete input: the successful "A" is not emitted. -/
theorem c9_format_error_aborts_witness :
    ∃ e, (∃ x ∈ c9Results, x.formatFunc = some (.error e))
      ∧ Format c9Results "; " = ("", some ("error formatting result: " ++ e)) :=
  c9_format_error_aborts c9Results "; "
    ⟨⟨true, .null, some (.error "boom"), .null⟩, by simp [c9Results], "boom", rfl⟩

/-- C6: when the parser produced zero top-level calls, or validation removed
every top-level call, `ProcessUserRequest` returns success (no error) with a
result containing exactly one synthetic call named
`__builtin__.unprocessable_request` whose result has `present=false` and
whose `format_fn` returns exactly the fixed prompt string. -/
theorem c6_unprocessable_fallback (env : ExecEnv)
    (verdict : PlannedFuncCall → Except GoError Bool) (s : OrchState)
    (funcCalls : List PlannedFuncCall)
    (h : funcCalls = [] ∨ evaluateFuncCallsConsistency env.toolSet verdict funcCalls = .ok []) :
    (ProcessUserRequest env verdict s (.ok funcCalls)).1 = .ok ⟨UnprocessableRequestExecutions⟩
    ∧ UnprocessableRequestExecutions.funcCalls.map (fun c => c.name)
        = ["__builtin__.unprocessable_request"]
    ∧ ∀ c ∈ UnprocessableRequestExecutions.funcCalls,
        c.result.present = false
        ∧ c.result.formatFunc = some (.ok
            "Unable to process this request. Please rephrase or provide a different query.") := by
  refine ⟨?_, rfl, ?_⟩
  · rcases h with rfl | hev
    · rfl
    · simp only [ProcessUserRequest, hev]
  · intro c hc
    simp only [UnprocessableRequestExecutions, List.mem_singleton] at hc
    subst hc
    exact ⟨rfl, rfl⟩

/-- Witness for C6: an empty plan under a concrete environment. -/
theorem c6_unprocessable_fallback_witness :
    (ProcessUserRequest c2Env (fun _ => Except.ok false) ⟨[]⟩ (.ok [])).1
      = .ok ⟨UnprocessableRequestExecutions⟩ :=
  (c6_unprocessable_fallback c2Env (fun _ => Except.ok false) ⟨[]⟩ [] (Or.inl rfl)).1

/-- A key has a lookup value exactly when it is among the keys. -/
theorem alookup_isSome_iff {ν : Type} (k : String) : ∀ (l : List (String × ν)),
    (alookup k l).isSome ↔ k ∈ l.map Prod.fst
  | [] => by simp [alookup]
  | (k₀, v₀) :: rest => by
    by_cases h : k₀ = k
    · subst h
      simp [alookup]
    · simp only [alookup, if_neg h, List.map_cons, List.mem_cons,
        alookup_isSome_iff k rest]
      constructor
      · intro hm
        exact Or.inr hm
      · rintro (rfl | hm)
        · exact absurd rfl h
        · exact hm

/-- Two association lists with unique keys and the same lookup function have
the same canonical (key-sorted) form. -/
theorem canonArgs_eq (m₁ m₂ : List (String × GoValue))
    (h₁ : (m₁.map Prod.fst).Nodup) (h₂ : (m₂.map Prod.fst).Nodup)
    (hl : ∀ k, alookup k m₁ = alookup k m₂) :
    canonArgs m₁ = canonArgs m₂ := by
  haveI : IsAntisymm String (· ≤ ·) := ⟨fun _ _ => le_antisymm⟩
  haveI : IsTotal String (· ≤ ·) := ⟨le_total⟩
  haveI : IsTrans String (· ≤ ·) := ⟨fun _ _ _ => le_trans⟩
  have hmem : ∀ a, a ∈ m₁.map Prod.fst ↔ a ∈ m₂.map Prod.fst := by
    intro a
    rw [← alookup_isSome_iff, ← alookup_isSome_iff, hl a]
  have hperm : (m₁.map Prod.fst).Perm (m₂.map Prod.fst) :=
    (List.perm_ext_iff_of_nodup h₁ h₂).mpr hmem
  have hsort : List.insertionSort (· ≤ ·) (m₁.map Prod.fst)
      = List.insertionSort (· ≤ ·) (m₂.map Prod.fst) :=
    List.eq_of_perm_of_sorted
      ((List.perm_insertionSort (· ≤ ·) (m₁.map Prod.fst)).trans
        (hperm.trans (List.perm_insertionSort (· ≤ ·) (m₂.map Prod.fst)).symm))
      (List.sorted_insertionSort (· ≤ ·) (m₁.map Prod.fst))
      (List.sorted_insertionSort (· ≤ ·) (m₂.map Prod.fst))
  unfold canonArgs
  rw [hsort]
  apply List.map_congr_left
  intro k _
  rw [hl k]

/-- Materialization skips an absent `FuncArg` child entirely. -/
theorem createProcessedArgs_absent : ∀ (pre post : List (String × ExecArg))
    (key cn cp : String) (ca : List (String × ExecArg)) (r : FuncResult),
    r.present = false →
    createProcessedArgs (pre ++ (key, ExecArg.funcArg cn cp ca r) :: post)
      = createProcessedArgs (pre ++ post)
  | [], post, key, cn, cp, ca, r, h => by
    simp only [List.nil_append, createProcessedArgs, h, Bool.false_eq_true, if_false]
  | (k₀, a₀) :: pre, post, key, cn, cp, ca, r, h => by
    have ih := createProcessedArgs_absent pre post key cn cp ca r h
    cases a₀ with
    | valueArg v =>
      show (k₀, v) :: createProcessedArgs (pre ++ (key, ExecArg.funcArg cn cp ca r) :: post)
          = (k₀, v) :: createProcessedArgs (pre ++ post)
      rw [ih]
    | funcArg n p a rr =>
      show (if rr.present then
              (k₀, rr.value) :: createProcessedArgs (pre ++ (key, ExecArg.funcArg cn cp ca r) :: post)
            else createProcessedArgs (pre ++ (key, ExecArg.funcArg cn cp ca r) :: post))
          = (if rr.present then
              (k₀, rr.value) :: createProcessedArgs (pre ++ post)
            else createProcessedArgs (pre ++ post))
      rw [ih]

/-- C5: fingerprints are stable.  First, for equal materialized-argument
mappings (same keys, same values) the fingerprint is identical regardless of
insertion order.  Second, a `FuncArg` child with `present=false` is omitted
from the materialized mapping by `createProcessedArgs`, so two calls
differing only in such an absent child produce the same fingerprint. -/
theorem c5_fingerprint_stability (functionName : String)
    (m₁ m₂ : List (String × GoValue)) (pre post : List (String × ExecArg))
    (key cn cp : String) (ca : List (String × ExecArg)) (r : FuncResult) :
    ((m₁.map Prod.fst).Nodup → (m₂.map Prod.fst).Nodup →
      (∀ k, alookup k m₁ = alookup k m₂) →
      generateFingerprint functionName m₁ = generateFingerprint functionName m₂)
    ∧ (r.present = false →
      generateFingerprint functionName
          (createProcessedArgs (pre ++ (key, ExecArg.funcArg cn cp ca r) :: post))
        = generateFingerprint functionName (createProcessedArgs (pre ++ post))) := by
  constructor
  · intro h₁ h₂ hl
    unfold generateFingerprint
    rw [canonArgs_eq m₁ m₂ h₁ h₂ hl]
  · intro h
    rw [createProcessedArgs_absent pre post key cn cp ca r h]

/-- Witness for C5 at concrete inputs: permuting two argument entries leaves
the fingerprint unchanged, and dropping an absent child does too. -/
theorem c5_fingerprint_stability_witness :
    generateFingerprint "f" [("a", .num 1), ("b", .num 2)]
      = generateFingerprint "f" [("b", .num 2), ("a", .num 1)]
    ∧ generateFingerprint "f"
        (createProcessedArgs [("x", .valueArg (.num 1)),
          ("k", .funcArg "g" "p" [] ⟨false, .null, none, .null⟩)])
      = generateFingerprint "f" (createProcessedArgs ([("x", .valueArg (.num 1))] ++ [])) :=
  ⟨(c5_fingerprint_stability "f" [("a", .num 1), ("b", .num 2)] [("b", .num 2), ("a", .num 1)]
      [] [] "" "" "" [] ⟨false, .null, none, .null⟩).1 (by decide) (by decide)
      (by
        intro k
        rcases eq_or_ne k "a" with rfl | ha
        · rfl
        · rcases eq_or_ne k "b" with rfl | hb
          · rfl
          · simp [alookup, Ne.symm ha, Ne.symm hb]),
   (c5_fingerprint_stability "f" [] [] [("x", .valueArg (.num 1))] [] "k" "g" "p" []
      ⟨false, .null, none, .null⟩).2 rfl⟩

/-- Memo-cache extension: every entry of `s` survives into `t`. -/
def MemoLe (s t : OrchState) : Prop :=
  ∀ fp r, alookup fp s.memo = some r → alookup fp t.memo = some r

theorem MemoLe.refl (s : OrchState) : MemoLe s s :=
  fun _ _ h => h

theorem MemoLe.trans {s t u : OrchState} (h₁ : MemoLe s t) (h₂ : MemoLe t u) : MemoLe s u :=
  fun fp r h => h₂ fp r (h₁ fp r h)

/-- Lookup hits in the left part survive appending. -/
theorem alookup_append_some {ν : Type} (k : String) :
    ∀ (l l' : List (String × ν)) (v : ν),
    alookup k l = some v → alookup k (l ++ l') = some v
  | [], _, _, h => by cases h
  | (k₀, v₀) :: rest, l', v, h => by
    by_cases hk : k₀ = k
    · rw [show alookup k ((k₀, v₀) :: rest) = some v₀ from by simp [alookup, hk]] at h
      cases h
      simp [alookup, hk]
    · rw [show alookup k ((k₀, v₀) :: rest) = alookup k rest from by simp [alookup, hk]] at h
      rw [List.cons_append,
        show alookup k ((k₀, v₀) :: (rest ++ l')) = alookup k (rest ++ l') from by
          simp [alookup, hk]]
      exact alookup_append_some k rest l' v h

/-- Lookup misses in the left part defer to the right part. -/
theorem alookup_append_none {ν : Type} (k : String) :
    ∀ (l l' : List (String × ν)),
    alookup k l = none → alookup k (l ++ l') = alookup k l'
  | [], _, _ => rfl
  | (k₀, v₀) :: rest, l', h => by
    by_cases hk : k₀ = k
    · rw [show alookup k ((k₀, v₀) :: rest) = some v₀ from by simp [alookup, hk]] at h
      cases h
    · rw [show alookup k ((k₀, v₀) :: rest) = alookup k rest from by simp [alookup, hk]] at h
      rw [List.cons_append,
        show alookup k ((k₀, v₀) :: (rest ++ l')) = alookup k (rest ++ l') from by
          simp [alookup, hk]]
      exact alookup_append_none k rest l' h

/-- The invariant connecting one execution step's start state, end state and
invocation log: the memo grows monotonically, every new entry is the recorded
result of a successful logged invocation, every logged invocation really ran
its registered executor on its recorded materialized args, every logged
fingerprint was absent from the starting memo, successful logged invocations
are stored, and no fingerprint is invoked twice. -/
structure ExecInv (env : ExecEnv) (s s' : OrchState) (log : List Invocation) : Prop where
  mono : MemoLe s s'
  newFromLog : ∀ fp r, alookup fp s'.memo = some r →
    alookup fp s.memo = some r ∨ ∃ inv ∈ log, inv.fp = fp ∧ inv.outcome = ExecOutcome.ok r
  logExec : ∀ inv ∈ log, ∃ ex, env.functions inv.name = some ex ∧ ex inv.args = inv.outcome
  logFresh : ∀ inv ∈ log, alookup inv.fp s.memo = none
  logStored : ∀ inv ∈ log, ∀ r, inv.outcome = ExecOutcome.ok r → alookup inv.fp s'.memo = some r
  fpNodup : (log.map (fun i => i.fp)).Nodup

theorem ExecInv.empty (env : ExecEnv) (s : OrchState) : ExecInv env s s [] where
  mono := MemoLe.refl s
  newFromLog := fun _ _ h => Or.inl h
  logExec := fun _ h => absurd h (List.not_mem_nil _)
  logFresh := fun _ h => absurd h (List.not_mem_nil _)
  logStored := fun _ h => absurd h (List.not_mem_nil _)
  fpNodup := List.nodup_nil

/-- Composing two consecutive steps, the first of which logged only
successful invocations. -/
theorem ExecInv.comp {env : ExecEnv} {s s₁ s₂ : OrchState} {l₁ l₂ : List Invocation}
    (h₁ : ExecInv env s s₁ l₁) (h₂ : ExecInv env s₁ s₂ l₂)
    (hok : ∀ inv ∈ l₁, ∃ r, inv.outcome = ExecOutcome.ok r) :
    ExecInv env s s₂ (l₁ ++ l₂) where
  mono := h₁.mono.trans h₂.mono
  newFromLog := fun fp r h =>
    match h₂.newFromLog fp r h with
    | .inl hs₁ =>
      match h₁.newFromLog fp r hs₁ with
      | .inl hs => .inl hs
      | .inr ⟨inv, hm, hfp, ho⟩ => .inr ⟨inv, List.mem_append_left _ hm, hfp, ho⟩
    | .inr ⟨inv, hm, hfp, ho⟩ => .inr ⟨inv, List.mem_append_right _ hm, hfp, ho⟩
  logExec := fun inv hm =>
    (List.mem_append.mp hm).elim (h₁.logExec inv) (h₂.logExec inv)
  logFresh := fun inv hm =>
    (List.mem_append.mp hm).elim (h₁.logFresh inv)
      (fun hm₂ => by
        rcases hfp : alookup inv.fp s.memo with _ | r
        · rfl
        · have := h₁.mono _ _ hfp
          rw [h₂.logFresh inv hm₂] at this
          cases this)
  logStored := fun inv hm r ho =>
    (List.mem_append.mp hm).elim
      (fun hm₁ => h₂.mono _ _ (h₁.logStored inv hm₁ r ho))
      (fun hm₂ => h₂.logStored inv hm₂ r ho)
  fpNodup := by
    rw [List.map_append, List.nodup_append]
    refine ⟨h₁.fpNodup, h₂.fpNodup, ?_⟩
    intro a ha₁ ha₂
    obtain ⟨inv₁, hm₁, hfp₁⟩ := List.mem_map.mp ha₁
    obtain ⟨inv₂, hm₂, hfp₂⟩ := List.mem_map.mp ha₂
    obtain ⟨r, hr⟩ := hok inv₁ hm₁
    have hst := h₁.logStored inv₁ hm₁ r hr
    have hfr := h₂.logFresh inv₂ hm₂
    rw [hfp₁] at hst
    rw [hfp₂] at hfr
    rw [hfr] at hst
    cases hst

/-- `checkRequiredArg` failures from the required loop are always wrapped in
an `execution.Error`, which `errors.As` cannot see through. -/
theorem checkRequiredList_not_formattable (funcName : String)
    (args : List (String × ExecArg)) : ∀ (req : List String) (e : GoError),
    checkRequiredList funcName args req = some e → AsFormattableError e = none
  | [], e, h => by cases h
  | p :: rest, e, h => by
    rcases hc : checkRequiredArg p args with _ | e'
    · rw [show checkRequiredList funcName args (p :: rest)
          = checkRequiredList funcName args rest from by
        simp [checkRequiredList, hc]] at h
      exact checkRequiredList_not_formattable funcName args rest e h
    · rw [show checkRequiredList funcName args (p :: rest)
          = some (.funcError funcName p e') from by simp [checkRequiredList, hc]] at h
      cases h
      rfl

/-- Any `checkRequiredArgs` error fails the `AsFormattableError` probe. -/
theorem checkRequiredArgs_not_formattable (env : ExecEnv) (funcName : String)
    (args : List (String × ExecArg)) (e : GoError)
    (h : checkRequiredArgs env funcName args = some e) : AsFormattableError e = none := by
  unfold checkRequiredArgs at h
  rcases hft : FindTool env.toolSet funcName with _ | schema
  · rw [hft] at h
    cases h
    rfl
  · rw [hft] at h
    exact checkRequiredList_not_formattable funcName args _ e h

/-- The step invariant for `finishCall`, together with: a successful result
logs only successes, carries the call's own fields, and leaves the call's
fingerprint stored in the final memo. -/
theorem finishCall_inv (env : ExecEnv) (s : OrchState) (executor : FuncExecutor)
    (name purpose : String) (argsExecution : List (String × ExecArg))
    (res : Except GoError ExecutedFuncCall) (s' : OrchState) (log : List Invocation)
    (heq : finishCall env s executor name purpose argsExecution = (res, s', log))
    (hex : env.functions name = some executor) :
    ExecInv env s s' log
    ∧ (∀ e, res = Except.ok e → ∀ inv ∈ log, ∃ r, inv.outcome = ExecOutcome.ok r)
    ∧ (∀ e, res = Except.ok e →
        e = ⟨name, purpose, argsExecution, e.result⟩
        ∧ alookup (generateFingerprint name (createProcessedArgs argsExecution)) s'.memo
            = some e.result) := by
  unfold finishCall at heq
  rcases hchk : checkRequiredArgs env name argsExecution with _ | err
  · rw [hchk] at heq
    simp only at heq
    rcases hmemo : alookup (generateFingerprint name (createProcessedArgs argsExecution))
        s.memo with _ | result
    · rw [hmemo] at heq
      rcases hexec : executor (createProcessedArgs argsExecution) with result | msg
      · rw [hexec] at heq
        cases heq
        refine ⟨?_, ?_, ?_⟩
        · refine ⟨?_, ?_, ?_, ?_, ?_, ?_⟩
          · intro fp r h
            exact alookup_append_some fp s.memo _ r h
          · intro fp r h
            rcases hfp : alookup fp s.memo with _ | r₀
            · rw [alookup_append_none fp s.memo _ hfp] at h
              revert h
              simp only [alookup]
              by_cases hk : generateFingerprint name (createProcessedArgs argsExecution) = fp
              · rw [if_pos hk]
                intro h
                cases h
                exact Or.inr ⟨_, List.mem_singleton_self _, by simp [hk], rfl⟩
              · rw [if_neg hk]
                intro h
                cases h
            · rw [alookup_append_some fp s.memo _ r₀ hfp] at h
              cases h
              exact Or.inl rfl
          · intro inv hm
            rw [List.mem_singleton] at hm
            subst hm
            exact ⟨executor, hex, hexec⟩
          · intro inv hm
            rw [List.mem_singleton] at hm
            subst hm
            exact hmemo
          · intro inv hm r ho
            rw [List.mem_singleton] at hm
            subst hm
            cases ho
            rw [alookup_append_none _ s.memo _ hmemo]
            simp [alookup]
          · simp
        · intro e _ inv hm
          rw [List.mem_singleton] at hm
          subst hm
          exact ⟨result, rfl⟩
        · intro e he
          cases he
          refine ⟨rfl, ?_⟩
          rw [alookup_append_none _ s.memo _ hmemo]
          simp [alookup]
      · rw [hexec] at heq
        cases heq
        refine ⟨?_, ?_, ?_⟩
        · refine ⟨MemoLe.refl s, fun fp r h => Or.inl h, ?_, ?_, ?_, ?_⟩
          · intro inv hm
            rw [List.mem_singleton] at hm
            subst hm
            exact ⟨executor, hex, hexec⟩
          · intro inv hm
            rw [List.mem_singleton] at hm
            subst hm
            exact hmemo
          · intro inv hm r ho
            rw [List.mem_singleton] at hm
            subst hm
            cases ho
          · simp
        · intro e he
          cases he
        · intro e he
          cases he
      · rw [hexec] at heq
        cases heq
        refine ⟨?_, ?_, ?_⟩
        · refine ⟨MemoLe.refl s, fun fp r h => Or.inl h, ?_, ?_, ?_, ?_⟩
          · intro inv hm
            rw [List.mem_singleton] at hm
            subst hm
            exact ⟨executor, hex, hexec⟩
          · intro inv hm
            rw [List.mem_singleton] at hm
            subst hm
            exact hmemo
          · intro inv hm r ho
            rw [List.mem_singleton] at hm
            subst hm
            cases ho
          · simp
        · intro e he
          cases he
        · intro e he
          cases he
    · rw [hmemo] at heq
      cases heq
      refine ⟨ExecInv.empty env s, ?_, ?_⟩
      · intro e _ inv hm
        exact absurd hm (List.not_mem_nil _)
      · intro e he
        cases he
        exact ⟨rfl, hmemo⟩
  · rw [hchk] at heq
    cases heq
    refine ⟨ExecInv.empty env s, ?_, ?_⟩
    · intro e _ inv hm
      exact absurd hm (List.not_mem_nil _)
    · intro e he
      unfold handleMissingRequiredArgsError at he
      rw [checkRequiredArgs_not_formattable env name argsExecution err hchk] at he
      cases he

/-- The step invariant for argument processing (and hence for every nested
call): proved by the mutual induction of `processArgsList`/`processOneArg`. -/
theorem processArgsList_inv (env : ExecEnv) :
    ∀ (s : OrchState) (parentName : String) (args : List (String × PlannedArg))
    (res : Except GoError (List (String × ExecArg))) (s' : OrchState) (log : List Invocation),
    processArgsList env s parentName args = (res, s', log) →
    ExecInv env s s' log
    ∧ (∀ x, res = Except.ok x → ∀ inv ∈ log, ∃ r, inv.outcome = ExecOutcome.ok r) := by
  refine processArgsList.induct env
    (fun s parentName args => ∀ res s' log,
      processArgsList env s parentName args = (res, s', log) →
      ExecInv env s s' log
      ∧ (∀ x, res = Except.ok x → ∀ inv ∈ log, ∃ r, inv.outcome = ExecOutcome.ok r))
    (fun s parentName key arg => ∀ res s' log,
      processOneArg env s parentName key arg = (res, s', log) →
      ExecInv env s s' log
      ∧ (∀ x, res = Except.ok x → ∀ inv ∈ log, ∃ r, inv.outcome = ExecOutcome.ok r))
    ?_ ?_ ?_ ?_ ?_ ?_ ?_ ?_ ?_
  · intro s parentName key v res s' log heq
    simp only [processOneArg] at heq
    cases heq
    exact ⟨ExecInv.empty env s, fun x _ inv hm => absurd hm (List.not_mem_nil _)⟩
  · intro s parentName key n p a hex res s' log heq
    simp only [processOneArg, hex] at heq
    cases heq
    exact ⟨ExecInv.empty env s, fun x hx => by cases hx⟩
  · intro s parentName key n p a ex hex e s₂ l₂ hchild ih res s' log heq
    simp only [processOneArg, hex, hchild] at heq
    cases heq
    exact ⟨(ih _ _ _ hchild).1, fun x hx => by cases hx⟩
  · intro s parentName key n p a ex hex eas s₂ l₂ hchild e s₃ l₃ hfin ih res s' log heq
    simp only [processOneArg, hex, hchild, hfin] at heq
    cases heq
    have hchildInv := ih _ _ _ hchild
    have hfinInv := finishCall_inv env s₂ ex n p eas _ _ _ hfin hex
    refine ⟨hchildInv.1.comp hfinInv.1 (hchildInv.2 eas rfl), fun x hx => by cases hx⟩
  · intro s parentName key n p a ex hex eas s₂ l₂ hchild c s₃ l₃ hfin ih res s' log heq
    simp only [processOneArg, hex, hchild, hfin] at heq
    cases heq
    have hchildInv := ih _ _ _ hchild
    have hfinInv := finishCall_inv env s₂ ex n p eas _ _ _ hfin hex
    refine ⟨hchildInv.1.comp hfinInv.1 (hchildInv.2 eas rfl), ?_⟩
    intro x _ inv hm
    rcases List.mem_append.mp hm with hm₁ | hm₂
    · exact hchildInv.2 eas rfl inv hm₁
    · exact hfinInv.2.1 c rfl inv hm₂
  · intro s parentName res s' log heq
    simp only [processArgsList] at heq
    cases heq
    exact ⟨ExecInv.empty env s, fun x _ inv hm => absurd hm (List.not_mem_nil _)⟩
  · intro s parentName key arg rest e s₁ l₁ h₁ ih res s' log heq
    simp only [processArgsList, h₁] at heq
    cases heq
    exact ⟨(ih _ _ _ h₁).1, fun x hx => by cases hx⟩
  · intro s parentName key arg rest ea s₁ l₁ h₁ e s₂ l₂ h₂ ih₂ ih₁ res s' log heq
    simp only [processArgsList, h₁, h₂] at heq
    cases heq
    have hi₁ := ih₂ _ _ _ h₁
    have hi₂ := ih₁ _ _ _ h₂
    exact ⟨hi₁.1.comp hi₂.1 (hi₁.2 ea rfl), fun x hx => by cases hx⟩
  · intro s parentName key arg rest ea s₁ l₁ h₁ eas s₂ l₂ h₂ ih₂ ih₁ res s' log heq
    simp only [processArgsList, h₁, h₂] at heq
    cases heq
    have hi₁ := ih₂ _ _ _ h₁
    have hi₂ := ih₁ _ _ _ h₂
    refine ⟨hi₁.1.comp hi₂.1 (hi₁.2 ea rfl), ?_⟩
    intro x _ inv hm
    rcases List.mem_append.mp hm with hm₁ | hm₂
    · exact hi₁.2 ea rfl inv hm₁
    · exact hi₂.2 eas rfl inv hm₂

/-- The step invariant for one top-level call. -/
theorem executeFunc_inv (env : ExecEnv) (s : OrchState) (c : PlannedFuncCall)
    (res : Except GoError ExecutedFuncCall) (s' : OrchState) (log : List Invocation)
    (heq : executeFunc env s c = (res, s', log)) :
    ExecInv env s s' log
    ∧ (∀ x, res = Except.ok x → ∀ inv ∈ log, ∃ r, inv.outcome = ExecOutcome.ok r) := by
  unfold executeFunc at heq
  rcases hex : env.functions c.name with _ | executor
  · rw [hex] at heq
    cases heq
    exact ⟨ExecInv.empty env s, fun x hx => by cases hx⟩
  · rcases hargs : processArgsList env s c.name c.args with ⟨r₁, s₁, l₁⟩
    rcases r₁ with e | argsExecution
    · simp only [hex, hargs] at heq
      cases heq
      exact ⟨(processArgsList_inv env _ _ _ _ _ _ hargs).1, fun x hx => by cases hx⟩
    · rcases hfin : finishCall env s₁ executor c.name c.purpose argsExecution with ⟨r₂, s₂, l₂⟩
      simp only [hex, hargs, hfin] at heq
      cases heq
      have hargsInv := processArgsList_inv env _ _ _ _ _ _ hargs
      have hfinInv := finishCall_inv env s₁ executor c.name c.purpose argsExecution _ _ _ hfin hex
      refine ⟨hargsInv.1.comp hfinInv.1 (hargsInv.2 argsExecution rfl), ?_⟩
      intro x hx inv hm
      rcases List.mem_append.mp hm with hm₁ | hm₂
      · exact hargsInv.2 argsExecution rfl inv hm₁
      · exact hfinInv.2.1 x hx inv hm₂

/-- The step invariant for a whole sequential execution. -/
theorem executeSeq_inv (env : ExecEnv) :
    ∀ (calls : List PlannedFuncCall) (s : OrchState)
    (res : Except GoError (List ExecutedFuncCall)) (s' : OrchState) (log : List Invocation),
    executeSeq env s calls = (res, s', log) →
    ExecInv env s s' log
    ∧ (∀ x, res = Except.ok x → ∀ inv ∈ log, ∃ r, inv.outcome = ExecOutcome.ok r)
  | [], s, res, s', log, heq => by
    simp only [executeSeq] at heq
    cases heq
    exact ⟨ExecInv.empty env s, fun x _ inv hm => absurd hm (List.not_mem_nil _)⟩
  | c :: rest, s, res, s', log, heq => by
    rcases h₁ : executeFunc env s c with ⟨r₁, s₁, l₁⟩
    rcases r₁ with e | funcExe
    · simp only [executeSeq, h₁] at heq
      cases heq
      exact ⟨(executeFunc_inv env s c _ _ _ h₁).1, fun x hx => by cases hx⟩
    · rcases h₂ : executeSeq env s₁ rest with ⟨r₂, s₂, l₂⟩
      have hi₁ := executeFunc_inv env s c _ _ _ h₁
      have hi₂ := executeSeq_inv env rest s₁ _ _ _ h₂
      rcases r₂ with e | es
      · simp only [executeSeq, h₁, h₂] at heq
        cases heq
        exact ⟨hi₁.1.comp hi₂.1 (hi₁.2 funcExe rfl), fun x hx => by cases hx⟩
      · simp only [executeSeq, h₁, h₂] at heq
        cases heq
        refine ⟨hi₁.1.comp hi₂.1 (hi₁.2 funcExe rfl), ?_⟩
        intro x _ inv hm
        rcases List.mem_append.mp hm with hm₁ | hm₂
        · exact hi₁.2 funcExe rfl inv hm₁
        · exact hi₂.2 es rfl inv hm₂

/-- C8: the memo cache only ever maps a fingerprint to the result of an
executor invocation that completed successfully (within the timeout): every
memo entry present after an execution either predates it or is the `ok`
outcome of a logged invocation of the registered executor on its materialized
args; erring and timing-out invocations add no entry.  Moreover a call that
fails the required-argument check (including the formattable-missing shape)
returns before fingerprinting — the state is unchanged and nothing is
invoked — and an unknown function fails before argument processing. -/
theorem c8_memo_only_successful (env : ExecEnv) (s : OrchState)
    (plan : List PlannedFuncCall) (out : Except GoError (List ExecutedFuncCall))
    (s' : OrchState) (log : List Invocation)
    (h : executeSeq env s plan = (out, s', log)) :
    (∀ fp r, alookup fp s'.memo = some r →
      alookup fp s.memo = some r ∨ ∃ inv ∈ log, inv.fp = fp ∧ inv.outcome = ExecOutcome.ok r)
    ∧ (∀ inv ∈ log, ∃ ex, env.functions inv.name = some ex ∧ ex inv.args = inv.outcome)
    ∧ (∀ inv ∈ log, ∀ r, inv.outcome = ExecOutcome.ok r → alookup inv.fp s'.memo = some r)
    ∧ (∀ name purpose argsExecution executor err,
        checkRequiredArgs env name argsExecution = some err →
        (finishCall env s executor name purpose argsExecution).2 = (s, []))
    ∧ (∀ c, env.functions c.name = none →
        executeFunc env s c = (.error (.funcError c.name "" (.simple "unknown function")), s, [])) := by
  have hinv := (executeSeq_inv env plan s out s' log h).1
  refine ⟨hinv.newFromLog, hinv.logExec, hinv.logStored, ?_, ?_⟩
  · intro name purpose argsExecution executor err hchk
    unfold finishCall
    rw [hchk]
  · intro c hc
    unfold executeFunc
    rw [hc]

/-- Concrete run for the C8 witness: `g` succeeds and is memoized, `b` errs
and leaves no entry. -/
def c8Env : ExecEnv :=
  ⟨fun n =>
    if n = "g" then some (fun _ => .ok ⟨true, .str "v", none, .null⟩)
    else if n = "b" then some (fun _ => .err "boom")
    else none,
   ⟨[⟨"g", "", .mk "object" "" none [] [] [] "", stringTypeInfo⟩,
     ⟨"b", "", .mk "object" "" none [] [] [] "", stringTypeInfo⟩], []⟩⟩

/-- Witness for C8: a run in which one executor succeeds and the next errs;
the conclusions of the invariant hold for its final state and log. -/
theorem c8_memo_only_successful_witness :
    executeSeq c8Env ⟨[]⟩ [⟨"g", "p", []⟩, ⟨"b", "p", []⟩]
      = (.error (.funcError "b" "" (.funcError "b" "" (.simple "boom"))),
         ⟨[("\x7b\"Name\":\"g\",\"Args\":\x7b\x7d\x7d", ⟨true, .str "v", none, .null⟩)]⟩,
         [⟨"\x7b\"Name\":\"g\",\"Args\":\x7b\x7d\x7d", "g", [], .ok ⟨true, .str "v", none, .null⟩⟩,
          ⟨"\x7b\"Name\":\"b\",\"Args\":\x7b\x7d\x7d", "b", [], .err "boom"⟩])
    ∧ (∀ inv ∈ [Invocation.mk "\x7b\"Name\":\"g\",\"Args\":\x7b\x7d\x7d" "g" []
          (.ok ⟨true, .str "v", none, .null⟩),
        Invocation.mk "\x7b\"Name\":\"b\",\"Args\":\x7b\x7d\x7d" "b" [] (.err "boom")],
        ∃ ex, c8Env.functions inv.name = some ex ∧ ex inv.args = inv.outcome) :=
  ⟨rfl,
   (c8_memo_only_successful c8Env ⟨[]⟩ [⟨"g", "p", []⟩, ⟨"b", "p", []⟩] _ _ _ rfl).2.1⟩

/-- Replaying a successful `finishCall` against any memo extending its final
memo is a pure cache hit: the same `ExecutedFuncCall` comes back, the state
is untouched and no executor is invoked. -/
theorem finishCall_replay (env : ExecEnv) (s : OrchState) (executor : FuncExecutor)
    (name purpose : String) (argsExecution : List (String × ExecArg))
    (e : ExecutedFuncCall) (s' : OrchState) (log : List Invocation) (t : OrchState)
    (heq : finishCall env s executor name purpose argsExecution = (.ok e, s', log))
    (ht : MemoLe s' t) :
    finishCall env t executor name purpose argsExecution = (.ok e, t, []) := by
  unfold finishCall at heq ⊢
  rcases hchk : checkRequiredArgs env name argsExecution with _ | err
  · rw [hchk] at heq
    simp only at heq ⊢
    rcases hmemo : alookup (generateFingerprint name (createProcessedArgs argsExecution))
        s.memo with _ | result
    · rw [hmemo] at heq
      rcases hexec : executor (createProcessedArgs argsExecution) with result | msg
      · rw [hexec] at heq
        cases heq
        have hstored : alookup (generateFingerprint name (createProcessedArgs argsExecution))
            t.memo = some result := by
          apply ht
          rw [alookup_append_none _ s.memo _ hmemo]
          simp [alookup]
        rw [hstored]
      · rw [hexec] at heq
        cases heq
      · rw [hexec] at heq
        cases heq
    · rw [hmemo] at heq
      cases heq
      rw [ht _ _ hmemo]
  · rw [hchk] at heq
    simp only at heq
    have hnf := checkRequiredArgs_not_formattable env name argsExecution err hchk
    unfold handleMissingRequiredArgsError at heq
    rw [hnf] at heq
    cases heq

/-- Replaying successful argument processing against an extended memo: the
same processed arguments come back, the state is untouched and no executor is
invoked. -/
theorem processArgsList_replay (env : ExecEnv) :
    ∀ (s : OrchState) (parentName : String) (args : List (String × PlannedArg))
    (eas : List (String × ExecArg)) (s' : OrchState) (log : List Invocation) (t : OrchState),
    processArgsList env s parentName args = (.ok eas, s', log) → MemoLe s' t →
    processArgsList env t parentName args = (.ok eas, t, []) := by
  refine processArgsList.induct env
    (fun s parentName args => ∀ eas s' log t,
      processArgsList env s parentName args = (.ok eas, s', log) → MemoLe s' t →
      processArgsList env t parentName args = (.ok eas, t, []))
    (fun s parentName key arg => ∀ ea s' log t,
      processOneArg env s parentName key arg = (.ok ea, s', log) → MemoLe s' t →
      processOneArg env t parentName key arg = (.ok ea, t, []))
    ?_ ?_ ?_ ?_ ?_ ?_ ?_ ?_ ?_
  · intro s parentName key v ea s' log t heq _
    simp only [processOneArg] at heq ⊢
    cases heq
    rfl
  · intro s parentName key n p a hex ea s' log t heq _
    simp only [processOneArg, hex] at heq
    cases heq
  · intro s parentName key n p a ex hex e s₂ l₂ hchild ih ea s' log t heq _
    simp only [processOneArg, hex, hchild] at heq
    cases heq
  · intro s parentName key n p a ex hex eas s₂ l₂ hchild e s₃ l₃ hfin ih ea s' log t heq _
    simp only [processOneArg, hex, hchild, hfin] at heq
    cases heq
  · intro s parentName key n p a ex hex eas s₂ l₂ hchild c s₃ l₃ hfin ih ea s' log t heq ht
    simp only [processOneArg, hex, hchild, hfin] at heq
    cases heq
    have hfinLe : MemoLe s₂ s₃ :=
      (finishCall_inv env s₂ ex n p eas _ _ _ hfin hex).1.mono
    have hchild' := ih eas s₂ l₂ t hchild (hfinLe.trans ht)
    have hfin' := finishCall_replay env s₂ ex n p eas c s₃ l₃ t hfin ht
    simp only [processOneArg, hex, hchild', hfin']
    rfl
  · intro s parentName eas s' log t heq _
    simp only [processArgsList] at heq ⊢
    cases heq
    rfl
  · intro s parentName key arg rest e s₁ l₁ h₁ ih eas s' log t heq _
    simp only [processArgsList, h₁] at heq
    cases heq
  · intro s parentName key arg rest ea s₁ l₁ h₁ e s₂ l₂ h₂ ih₂ ih₁ eas s' log t heq _
    simp only [processArgsList, h₁, h₂] at heq
    cases heq
  · intro s parentName key arg rest ea s₁ l₁ h₁ eas s₂ l₂ h₂ ih₂ ih₁ eas' s' log t heq ht
    simp only [processArgsList, h₁, h₂] at heq
    cases heq
    have hrestLe : MemoLe s₁ s₂ :=
      (processArgsList_inv env s₁ parentName rest _ _ _ h₂).1.mono
    have h₁' := ih₂ ea s₁ l₁ t h₁ (hrestLe.trans ht)
    have h₂' := ih₁ eas s₂ l₂ t h₂ ht
    simp only [processArgsList, h₁', h₂']
    rfl

/-- Replaying one successful top-level call against an extended memo. -/
theorem executeFunc_replay (env : ExecEnv) (s : OrchState) (c : PlannedFuncCall)
    (e : ExecutedFuncCall) (s' : OrchState) (log : List Invocation) (t : OrchState)
    (heq : executeFunc env s c = (.ok e, s', log)) (ht : MemoLe s' t) :
    executeFunc env t c = (.ok e, t, []) := by
  unfold executeFunc at heq ⊢
  rcases hex : env.functions c.name with _ | executor
  · rw [hex] at heq
    cases heq
  · rcases hargs : processArgsList env s c.name c.args with ⟨r₁, s₁, l₁⟩
    rcases r₁ with er | argsExecution
    · simp only [hex, hargs] at heq
      cases heq
    · rcases hfin : finishCall env s₁ executor c.name c.purpose argsExecution with ⟨er | e₂, s₂, l₂⟩
      · simp only [hex, hargs, hfin] at heq
        cases heq
      · simp only [hex, hargs, hfin] at heq
        cases heq
        have hfinLe :=
          (finishCall_inv env s₁ executor c.name c.purpose argsExecution _ _ _ hfin hex).1.mono
        have hargs' := processArgsList_replay env s c.name c.args argsExecution s₁ l₁ t hargs
          (hfinLe.trans ht)
        have hfin' := finishCall_replay env s₁ executor c.name c.purpose argsExecution _ _ _ t
          hfin ht
        simp only [hex, hargs', hfin']
        rfl

/-- Replaying a whole successful sequential execution against an extended
memo. -/
theorem executeSeq_replay (env : ExecEnv) :
    ∀ (calls : List PlannedFuncCall) (s : OrchState)
    (res : List ExecutedFuncCall) (s' : OrchState) (log : List Invocation) (t : OrchState),
    executeSeq env s calls = (.ok res, s', log) → MemoLe s' t →
    executeSeq env t calls = (.ok res, t, [])
  | [], s, res, s', log, t, heq, _ => by
    simp only [executeSeq] at heq ⊢
    cases heq
    rfl
  | c :: rest, s, res, s', log, t, heq, ht => by
    rcases h₁ : executeFunc env s c with ⟨r₁, s₁, l₁⟩
    rcases r₁ with er | funcExe
    · simp only [executeSeq, h₁] at heq
      cases heq
    · rcases h₂ : executeSeq env s₁ rest with ⟨er | es, s₂, l₂⟩
      · simp only [executeSeq, h₁, h₂] at heq
        cases heq
      · simp only [executeSeq, h₁, h₂] at heq
        cases heq
        have hrestLe :=
          (executeSeq_inv env rest s₁ _ _ _ h₂).1.mono
        have h₁' := executeFunc_replay env s c funcExe s₁ l₁ t h₁ (hrestLe.trans ht)
        have h₂' := executeSeq_replay env rest s₁ _ _ _ t h₂ ht
        simp only [executeSeq, h₁', h₂']
        rfl

/-- C3: with executors that are deterministic functions of their materialized
arguments, executing a plan twice under the same orchestrator yields equal
`ExecutedFuncCall` results for every call; during the second run no executor
is invoked at all (every fingerprint hits the memo populated by the first
run, whose `FuncResult` is returned instead), and the first run's invocation
log carries pairwise distinct fingerprints — so each unique
(name, materialized args) pair invokes its executor at most once across both
runs. -/
theorem c3_memoization_idempotent (env : ExecEnv) (s₀ : OrchState)
    (plan : List PlannedFuncCall) (res : List ExecutedFuncCall)
    (s₁ : OrchState) (log₁ : List Invocation)
    (h : executeSeq env s₀ plan = (.ok res, s₁, log₁)) :
    executeSeq env s₁ plan = (.ok res, s₁, [])
    ∧ (log₁.map (fun i => i.fp)).Nodup
    ∧ ((log₁ ++ ([] : List Invocation)).map (fun i => i.fp)).Nodup := by
  refine ⟨executeSeq_replay env plan s₀ res s₁ log₁ s₁ h (MemoLe.refl s₁), ?_, ?_⟩
  · exact (executeSeq_inv env plan s₀ _ _ _ h).1.fpNodup
  · rw [List.append_nil]
    exact (executeSeq_inv env plan s₀ _ _ _ h).1.fpNodup

/-- Concrete plan for the C3 witness: two identical calls to `g`; the second
already hits the memo within the first run, and the replayed run invokes
nothing. -/
theorem c3_memoization_idempotent_witness :
    executeSeq c8Env ⟨[]⟩ [⟨"g", "p", []⟩, ⟨"g", "p", []⟩]
      = (.ok [⟨"g", "p", [], ⟨true, .str "v", none, .null⟩⟩,
              ⟨"g", "p", [], ⟨true, .str "v", none, .null⟩⟩],
         ⟨[("\x7b\"Name\":\"g\",\"Args\":\x7b\x7d\x7d", ⟨true, .str "v", none, .null⟩)]⟩,
         [⟨"\x7b\"Name\":\"g\",\"Args\":\x7b\x7d\x7d", "g", [], .ok ⟨true, .str "v", none, .null⟩⟩])
    ∧ (executeSeq c8Env ⟨[("\x7b\"Name\":\"g\",\"Args\":\x7b\x7d\x7d", ⟨true, .str "v", none, .null⟩)]⟩
          [⟨"g", "p", []⟩, ⟨"g", "p", []⟩]
        = (.ok [⟨"g", "p", [], ⟨true, .str "v", none, .null⟩⟩,
                ⟨"g", "p", [], ⟨true, .str "v", none, .null⟩⟩],
           ⟨[("\x7b\"Name\":\"g\",\"Args\":\x7b\x7d\x7d", ⟨true, .str "v", none, .null⟩)]⟩, [])
       ∧ ([Invocation.mk "\x7b\"Name\":\"g\",\"Args\":\x7b\x7d\x7d" "g" []
            (.ok ⟨true, .str "v", none, .null⟩)].map (fun i => i.fp)).Nodup) :=
  ⟨rfl,
   (c3_memoization_idempotent c8Env ⟨[]⟩ [⟨"g", "p", []⟩, ⟨"g", "p", []⟩] _ _ _ rfl).1,
   (c3_memoization_idempotent c8Env ⟨[]⟩ [⟨"g", "p", []⟩, ⟨"g", "p", []⟩] _ _ _ rfl).2.1⟩
